import Mathlib

set_option maxRecDepth 8000

/- =====================================================================
   Shallow embedding of simpl.py: a term simplifier that flattens a term
   into goal equations for an external prover, extracts derived equality
   pairs from the prover output (or a saved log), and resolves them into
   ground bindings for goal labels.

   Python strings are modelled as List Char (Python 3 strings are
   sequences of code points; Lean Char is a unicode scalar value, and
   the character-class functions Char.isDigit / toLower / toUpper model
   the ASCII behaviour of the Python originals, which is the range
   exercised by this program).  Python ints are unbounded, so sizes and
   indices are Nat.  Fallible Python code (IndexError, ValueError,
   AssertionError, raise Exception, TypeError) is modelled with Except.
   ===================================================================== -/

/-- Errors raised by simpl.py: IndexError from out-of-range string
indexing in the parser, ValueError from int() on a non-numeral or from
tuple unpacking of str.split, AssertionError from failed assert
statements, the generic Exception("parsing error") raised at line 220,
and TypeError from len() applied to a Formula (line 459).
fuelExhausted is a modelling artifact of the fuel-based recursions; it
is provably unreachable for the fuel bounds used below. -/
inductive PyErr where
  | indexError
  | valueError
  | assertionError
  | parseError
  | typeError
  | fuelExhausted
deriving DecidableEq

/-- The term type of simpl.py (class Formula, lines 46-83): an identifier
together with a list of argument terms.  The is_var and value fields
assigned in __init__ are deterministic functions of (id, args) and no
other code writes them; they are modelled by isVarF below and by the
success of mkChecked (the constructor including its ValueError). -/
inductive Formula where
  | mk (id : List Char) (args : List Formula)

mutual
def decEqF : (a b : Formula) → Decidable (a = b)
  | .mk i1 a1, .mk i2 a2 =>
    match decEq i1 i2, decEqL a1 a2 with
    | isTrue h1, isTrue h2 => isTrue (by rw [h1, h2])
    | isFalse h1, _ => isFalse (by intro h; injection h; exact h1 ‹_›)
    | _, isFalse h2 => isFalse (by intro h; injection h; exact h2 ‹_›)
def decEqL : (a b : List Formula) → Decidable (a = b)
  | [], [] => isTrue rfl
  | [], _ :: _ => isFalse (by intro h; exact List.noConfusion h)
  | _ :: _, [] => isFalse (by intro h; exact List.noConfusion h)
  | x :: xs, y :: ys =>
    match decEqF x y, decEqL xs ys with
    | isTrue h1, isTrue h2 => isTrue (by rw [h1, h2])
    | isFalse h1, _ => isFalse (by intro h; injection h; exact h1 ‹_›)
    | _, isFalse h2 => isFalse (by intro h; injection h; exact h2 ‹_›)
end

instance : DecidableEq Formula := decEqF

instance {e a : Type} [DecidableEq e] [DecidableEq a] : DecidableEq (Except e a)
  | .error x, .error y =>
    if h : x = y then isTrue (by rw [h]) else isFalse (by intro hh; injection hh; exact h ‹_›)
  | .error _, .ok _ => isFalse (by intro h; exact Except.noConfusion h)
  | .ok _, .error _ => isFalse (by intro h; exact Except.noConfusion h)
  | .ok x, .ok y =>
    if h : x = y then isTrue (by rw [h]) else isFalse (by intro hh; injection hh; exact h ‹_›)

/-- Identifier of a term (the Python attribute .id). -/
def idOf : Formula → List Char
  | .mk id _ => id

/-- Argument list of a term (the Python attribute .args). -/
def argsOf : Formula → List Formula
  | .mk _ args => args

mutual
/-- Formula.size (lines 76-80): node count. -/
def sizeF : Formula → Nat
  | .mk _ args => 1 + sizeL args
def sizeL : List Formula → Nat
  | [] => 0
  | a :: as => sizeF a + sizeL as
end

mutual
/-- Formula.__repr__ (lines 62-66): a leaf prints as its identifier, an
application as id(arg1,arg2,...). -/
def reprF : Formula → List Char
  | .mk id [] => id
  | .mk id (a :: as) => id ++ '(' :: (reprArgs (a :: as) ++ [')'])
/-- ','.join(map(str, args)) of __repr__. -/
def reprArgs : List Formula → List Char
  | [] => []
  | [a] => reprF a
  | a :: b :: rest => reprF a ++ ',' :: reprArgs (b :: rest)
end

/-- The compiled regex pattern goal\d+ used via .match, i.e. anchored at
the START of the string only (line 139): true iff the string begins with
"goal" followed by at least one digit.  Not a full match: "goal1x" and
"goal1(a)" also match. -/
def patternB : List Char → Bool
  | 'g' :: 'o' :: 'a' :: 'l' :: c :: _ => c.isDigit
  | _ => false

/-- is_goal (lines 333-334): a 0-arity term whose id prefix-matches the
goal pattern. -/
def isGoalF : Formula → Bool
  | .mk id [] => patternB id
  | .mk _ (_ :: _) => false

mutual
/-- is_ground (lines 328-331): a leaf is ground iff its id does not
prefix-match goal\d+; an application is ground iff all its arguments
are (note: the HEAD identifier of an application is never checked). -/
def groundF : Formula → Bool
  | .mk id [] => !(patternB id)
  | .mk _ (a :: as) => groundF a && groundL as
def groundL : List Formula → Bool
  | [] => true
  | a :: as => groundF a && groundL as
end

mutual
/-- contains_label (lines 336-339): the identifier occurs at ANY node of
the tree, head identifiers of applications included. -/
def containsLabel : Formula → List Char → Bool
  | .mk id args, label => id == label || containsLabelL args label
def containsLabelL : List Formula → List Char → Bool
  | [], _ => false
  | a :: as, label => containsLabel a label || containsLabelL as label
end

mutual
/-- Occurrence of an identifier as a LEAF (0-arity node); this is what
the substitution function replace actually rewrites.  Used to state the
amended self-reference invariant. -/
def containsLeaf : Formula → List Char → Bool
  | .mk id [], label => id == label
  | .mk _ (a :: as), label => containsLeaf a label || containsLeafL as label
def containsLeafL : List Formula → List Char → Bool
  | [], _ => false
  | a :: as, label => containsLeaf a label || containsLeafL as label
end

mutual
/-- Some leaf of the tree prefix-matches goal\d+ (exactly the negation
of groundF, proved below). -/
def hasGoalLeaf : Formula → Bool
  | .mk id [] => patternB id
  | .mk _ (a :: as) => hasGoalLeaf a || hasGoalLeafL as
def hasGoalLeafL : List Formula → Bool
  | [] => false
  | a :: as => hasGoalLeaf a || hasGoalLeafL as
end

mutual
/-- replace (lines 109-132): substitute a term for every LEAF whose id
equals old.  The Python version mutates argument lists in place and
returns the same object; at every use site the rewritten trees replace
the originals (remaining is rebuilt each round, lines 403-433) and the
inserted term t is ground so later substitutions never rewrite inside
it, hence this pure rendering is observationally equivalent. -/
def replaceF (old : List Char) (new : Formula) : Formula → Formula
  | .mk id [] => if id == old then new else .mk id []
  | .mk id (a :: as) => .mk id (replaceF old new a :: replaceL old new as)
def replaceL (old : List Char) (new : Formula) : List Formula → List Formula
  | [] => []
  | a :: as => replaceF old new a :: replaceL old new as
end

/-- str.lower() (ASCII scope). -/
def lowerChars (l : List Char) : List Char := l.map Char.toLower

/-- str.upper() (ASCII scope). -/
def upperChars (l : List Char) : List Char := l.map Char.toUpper

/-- str.startswith. -/
def startsWithL (l pre : List Char) : Bool := pre.isPrefixOf l

/-- The whitespace class stripped by str.strip() and matched by \s
(ASCII scope). -/
def isPySpace (c : Char) : Bool :=
  c == ' ' || c == '\t' || c == '\n' || c == '\r' || c == '\x0b' || c == '\x0c'

/-- str.strip(): drop whitespace from both ends. -/
def trimChars (l : List Char) : List Char :=
  ((l.dropWhile isPySpace).reverse.dropWhile isPySpace).reverse

mutual
/-- Body of a decimal int() literal after the optional sign: digit+
optionally separated by single underscores (digit groups). -/
def digitsRun : List Char → Bool
  | [] => false
  | c :: rest => c.isDigit && afterDigit rest
def afterDigit : List Char → Bool
  | [] => true
  | '_' :: rest => digitsRun rest
  | c :: rest => c.isDigit && afterDigit rest
end

/-- Success of Python int(s) (line 54/56): strip whitespace, optional
sign, then a nonempty digit run with single underscores between digits
(ASCII scope).  The numeric value itself is irrelevant: the .value
field it would populate is never read anywhere else in simpl.py. -/
def pyIntOk (l : List Char) : Bool :=
  match trimChars l with
  | '+' :: r => digitsRun r
  | '-' :: r => digitsRun r
  | r => digitsRun r

/-- Whether the numeric decoding in Formula.__init__ (lines 52-58)
succeeds for a 0-arity identifier. -/
def leafDecodeOk (id : List Char) : Bool :=
  if startsWithL (lowerChars id) "numneg".data || startsWithL (lowerChars id) "negnum".data then
    pyIntOk (id.drop 6)
  else if startsWithL (lowerChars id) "num".data then
    pyIntOk (id.drop 3)
  else true

/-- Formula.__init__ (lines 47-58) as a checked constructor: for a
0-arity term whose lowercased id starts with numneg/negnum the suffix
id[6:] is fed to int(), else for a num prefix the suffix id[3:], and a
non-numeral suffix raises ValueError; terms with arguments never
decode. -/
def mkChecked (id : List Char) (args : List Formula) : Except PyErr Formula :=
  match args with
  | [] => if leafDecodeOk id then .ok (.mk id []) else .error .valueError
  | a :: as => .ok (.mk id (a :: as))

/-- The is_var flag computed by Formula.__init__: set only in the
elif id == id.upper() branch (line 57), i.e. only when the numeric
prefix branches did not fire first. -/
def isVarF : Formula → Bool
  | .mk id [] =>
    !(startsWithL (lowerChars id) "numneg".data || startsWithL (lowerChars id) "negnum".data) &&
    !(startsWithL (lowerChars id) "num".data) &&
    upperChars id == id
  | .mk _ (_ :: _) => false

/-- SPEC-side notion (sections 3 and 4.3 of the spec): a bare goal-label
leaf, i.e. a 0-arity term whose WHOLE identifier is "goal" followed by
one or more digits.  The code never computes this; it is needed to
state claims that talk about bare goal labels. -/
def bareGoalLabelB : Formula → Bool
  | .mk ('g' :: 'o' :: 'a' :: 'l' :: c :: rest) [] => (c :: rest).all Char.isDigit
  | .mk _ _ => false

/- =====================================================================
   Parser (parse_formula, lines 85-107).

   parse_formula strips spaces from its argument at every call, but the
   recursive calls always receive suffixes of an already space-free
   string, on which stripping is the identity; so the embedding strips
   once at the entry point and the core recursion works on the stripped
   list.  Every s[0] on a possibly-empty string in the Python source is
   modelled by an explicit IndexError case.  The recursion is fuel
   indexed to stay kernel-executable; the entry point passes fuel
   2*length+2 which is shown sufficient where needed.
   ===================================================================== -/

/-- s.replace(" ", "") (line 86): removes only the space character. -/
def stripSpaces (l : List Char) : List Char := l.filter (fun c => c != ' ')

/-- The three delimiter characters of the grammar. -/
def isDelim (c : Char) : Bool := c == '(' || c == ')' || c == ','

mutual
/-- Core of parse_formula on a space-free input: take the maximal
delimiter-free prefix as the identifier (lines 87-90), then dispatch on
the next character (lines 91-107). -/
def parseCore : Nat → List Char → Except PyErr (Formula × List Char)
  | 0, _ => .error .fuelExhausted
  | Nat.succ fuel, s =>
      parseAfterWord fuel (s.takeWhile (fun c => !isDelim c)) (s.dropWhile (fun c => !isDelim c))
/-- Dispatch on the first character after the identifier: end of input
returns a leaf (lines 91-92), an opening parenthesis enters the
argument loop (lines 93-105), any other delimiter returns a leaf and
the unconsumed remainder (lines 106-107). -/
def parseAfterWord : Nat → List Char → List Char → Except PyErr (Formula × List Char)
  | _, word, [] => do
      let f ← mkChecked word []
      .ok (f, [])
  | 0, _, _ :: _ => .error .fuelExhausted
  | Nat.succ fuel, word, c :: cs =>
      if c = '(' then do
        let p ← parseArgsCore fuel cs
        let f ← mkChecked word p.1
        .ok (f, p.2)
      else do
        let f ← mkChecked word []
        .ok (f, c :: cs)
/-- The argument loop of parse_formula (lines 95-104): the while True
loop checks s[0] == ')' - an IndexError when s is empty (line 97) -
and otherwise parses one argument. -/
def parseArgsCore : Nat → List Char → Except PyErr (List Formula × List Char)
  | 0, _ => .error .fuelExhausted
  | Nat.succ _, [] => .error .indexError
  | Nat.succ fuel, c :: cs =>
      if c = ')' then .ok ([], cs)
      else do
        let p ← parseCore fuel (c :: cs)
        parseAfterArg fuel p.1 p.2
/-- The optional comma consumption after one parsed argument
(lines 103-104): the s[0] test raises IndexError on an empty remainder
(line 103), a comma is consumed, and the loop continues at its top. -/
def parseAfterArg : Nat → Formula → List Char → Except PyErr (List Formula × List Char)
  | _, _, [] => .error .indexError
  | 0, _, _ :: _ => .error .fuelExhausted
  | Nat.succ fuel, arg, d :: ds =>
      if d = ',' then do
        let q ← parseArgsCore fuel ds
        .ok (arg :: q.1, q.2)
      else do
        let q ← parseArgsCore fuel (d :: ds)
        .ok (arg :: q.1, q.2)
end

/-- Fuel sufficient for parseCore on an input of this length. -/
def parseFuel (l : List Char) : Nat := 2 * l.length + 2

/-- parse_formula (lines 85-107). -/
def parse_formula (s : List Char) : Except PyErr (Formula × List Char) :=
  parseCore (parseFuel (stripSpaces s)) (stripSpaces s)

/-- The top-level parse of the term string (lines 218-220): a nonempty
remainder raises Exception("parsing error"). -/
def parseTop (s : List Char) : Except PyErr Formula :=
  match parse_formula s with
  | .ok (t, []) => .ok t
  | .ok (_, _ :: _) => .error .parseError
  | .error e => .error e

/- =====================================================================
   Substitution extractor.

   Path 1 (saved substitution file, lines 141-189) and path 2 (raw Twee
   output after the goal marker, lines 297-322) share the separator
   split, the identical-sides drop and the goal\d+ prefix filter; path 2
   additionally requires the substring "goal" somewhere in the line and
   strips a leading "<digits>. " ordinal, while path 1 strips the whole
   line and skips empty lines.
   ===================================================================== -/

/-- Substring containment (the Python operator in for strings). -/
def hasSubstr (sub : List Char) : List Char → Bool
  | [] => sub.isEmpty
  | c :: cs => sub.isPrefixOf (c :: cs) || hasSubstr sub cs

/-- str.split(sep) for a nonempty separator: cut at every
non-overlapping occurrence, scanning left to right.  Fuel-indexed
(fuel length+1 always suffices since every step consumes a character). -/
def splitOnSub (sep : List Char) : Nat → List Char → List (List Char)
  | 0, l => [l]
  | Nat.succ _, [] => [[]]
  | Nat.succ fuel, c :: cs =>
    if sep.isPrefixOf (c :: cs) then
      [] :: splitOnSub sep fuel ((c :: cs).drop sep.length)
    else
      match splitOnSub sep fuel cs with
      | [] => [[c]]
      | p :: ps => (c :: p) :: ps

/-- str.split(sep) with sufficient fuel. -/
def splitStr (sep l : List Char) : List (List Char) :=
  splitOnSub sep (l.length + 1) l

/-- re.sub(r"^\s*\d+\.\s+", "", line) (line 308): remove a leading
ordinal consisting of optional whitespace, one or more digits, a dot
and at least one whitespace character; otherwise leave the line
unchanged. -/
def stripOrdinal (l : List Char) : List Char :=
  let l1 := l.dropWhile isPySpace
  let ds := l1.takeWhile Char.isDigit
  if ds.isEmpty then l
  else
    match l1.drop ds.length with
    | '.' :: sp :: rest => if isPySpace sp then (sp :: rest).dropWhile isPySpace else l
    | _ => l

/-- Common tail of both extraction filters (lines 172-182 and 316-322):
strip both sides, drop the line when the sides are textually equal,
keep the pair iff ONE SIDE PREFIX-matches goal\d+ as raw text - the
sides are not parsed here.  A some result is a retained pair, a none
result a skipped line. -/
def finishPair (l r : List Char) : Except PyErr (Option (List Char × List Char)) :=
  let lt := trimChars l
  let rt := trimChars r
  if lt == rt then .ok none
  else if patternB lt || patternB rt then .ok (some (lt, rt))
  else .ok none

/-- One line of the raw Twee evidence block (lines 301-322).  A tuple
unpacking lhs, rhs = line.split(...) with a number of parts other than
two raises ValueError (this happens e.g. when the separator occurs
twice, or when "<->" occurs without surrounding spaces so that
split(" <-> ") returns one part). -/
def lineFilterRaw (line0 : List Char) : Except PyErr (Option (List Char × List Char)) :=
  if !hasSubstr "goal".data line0 then .ok none
  else
    let line := stripOrdinal line0
    if hasSubstr "<->".data line then
      match splitStr " <-> ".data line with
      | [l, r] => finishPair l r
      | _ => .error .valueError
    else if hasSubstr "->".data line then
      match splitStr " -> ".data line with
      | [l, r] => finishPair l r
      | _ => .error .valueError
    else .ok none

/-- One line of a saved substitution file (lines 158-182); lines without
a separator or without the goal pattern are skipped with a warning. -/
def lineFilterFile (line0 : List Char) : Except PyErr (Option (List Char × List Char)) :=
  let line := trimChars line0
  if line.isEmpty then .ok none
  else if hasSubstr "<->".data line then
    match splitStr " <-> ".data line with
    | [l, r] => finishPair l r
    | _ => .error .valueError
  else if hasSubstr "->".data line then
    match splitStr " -> ".data line with
    | [l, r] => finishPair l r
    | _ => .error .valueError
  else .ok none

/-- Marker scan of the substitution file (lines 149-156): start index is
one past the LAST line starting with "Substitutions found:", end index
is the FIRST line starting with "Resolving" (the loop breaks there);
defaults 0 and the number of lines. -/
def scanIdxGo : List (List Char) → Nat → Nat → Nat → Nat × Nat
  | [], _, st, en => (st, en)
  | l :: rest, i, st, en =>
    let st' := if startsWithL l "Substitutions found:".data then i + 1 else st
    if startsWithL l "Resolving".data then (st', i)
    else scanIdxGo rest (i + 1) st' en

/-- Accumulate the retained pairs of a block of lines, in line order,
propagating any error at the first offending line. -/
def collectPairsWith (filter : List Char → Except PyErr (Option (List Char × List Char))) :
    List (List Char) → Except PyErr (List (List Char × List Char))
  | [] => .ok []
  | l :: rest => do
    let h ← filter l
    let t ← collectPairsWith filter rest
    match h with
    | some p => .ok (p :: t)
    | none => .ok t

/-- lines[start_idx:end_idx] of the substitution file (line 157)
followed by the per-line filter of lines 158-182. -/
def extractFileLines (lines : List (List Char)) : Except PyErr (List (List Char × List Char)) :=
  let p := scanIdxGo lines 0 0 lines.length
  let body := (lines.take p.2).drop p.1
  collectPairsWith lineFilterFile body

/-- The extraction loop over the raw Twee evidence block (lines 301-322). -/
def extractRawLines (lines : List (List Char)) : Except PyErr (List (List Char × List Char)) :=
  collectPairsWith lineFilterRaw lines

/- =====================================================================
   Flattening encoder (collect_subterms, lines 225-253).

   The traversal returns the next free index and the string constant
   representing the node; it threads the string-keyed cache
   created_subterms and appends one (name, printed subterm) pair to
   subst_set per freshly labelled node (line 246); the goals list of cnf
   lines (lines 247-248) is appended in the same statement block, in the
   same order, so the eqs field below models the emission order of both.
   new_args holds the STRING constants of the children, and
   str(Formula(t.id, new_args)) renders exactly id(c1,...,ck) or the
   bare id when there are no children; re-running the Formula
   constructor on t.id cannot raise because t itself was already
   successfully constructed with the same identifier.
   ===================================================================== -/

/-- Lookup in the string-keyed cache created_subterms.  Keys are unique:
a key is only inserted after its own lookup missed, and the recursive
calls in between insert only keys of strict subterms, whose printed
forms are strictly shorter. -/
def lookupC : List (List Char × List Char) → List Char → Option (List Char)
  | [], _ => none
  | (k, v) :: rest, key => if k == key then some v else lookupC rest key

/-- ','.join of a list of strings. -/
def interComma : List (List Char) → List Char
  | [] => []
  | [n] => n
  | n :: m :: rest => n ++ ',' :: interComma (m :: rest)

/-- str(Formula(id, new_args)) where new_args is a list of strings. -/
def strOfParts (id : List Char) (names : List (List Char)) : List Char :=
  match names with
  | [] => id
  | n :: ns => id ++ '(' :: (interComma (n :: ns) ++ [')'])

/-- Decimal digits of a natural number, for the f-string goal{idx}. -/
def natToChars (n : Nat) : List Char := Nat.toDigits 10 n

/-- State returned by one collect_subterms call: next free index, the
constant that represents the node, the cache, and the equation list
accumulated so far (appended at the end, preserving emission order). -/
structure CollectOut where
  nextIdx : Nat
  nameC : List Char
  cache : List (List Char × List Char)
  eqs : List (List Char × List Char)

/-- State returned by the for-loop over the children. -/
structure CollectArgsOut where
  nextIdx : Nat
  names : List (List Char)
  cache : List (List Char × List Char)
  eqs : List (List Char × List Char)

mutual
/-- collect_subterms (lines 229-250): cached nodes reuse their label
(lines 232-234); a non-root leaf is returned as its own identifier
(lines 235-237); otherwise the node reserves index idx, flattens its
children with indices from idx+1, emits (goal{idx}, printed shallow
term), and caches its printed form. -/
def collectSub : Formula → Nat → List (List Char × List Char) → List (List Char × List Char) → CollectOut
  | .mk id args, idx, cache, eqs =>
    match lookupC cache (reprF (.mk id args)) with
    | some n => ⟨idx, n, cache, eqs⟩
    | none =>
      if idx > 0 && args.isEmpty then ⟨idx, id, cache, eqs⟩
      else
        let r := collectArgs args (idx + 1) cache eqs
        let name := "goal".data ++ natToChars idx
        ⟨r.nextIdx, name, (reprF (.mk id args), name) :: r.cache,
         r.eqs ++ [(name, strOfParts id r.names)]⟩
/-- The for-loop over t.args (lines 241-243). -/
def collectArgs : List Formula → Nat → List (List Char × List Char) → List (List Char × List Char) → CollectArgsOut
  | [], idx, cache, eqs => ⟨idx, [], cache, eqs⟩
  | a :: as, idx, cache, eqs =>
    let r1 := collectSub a idx cache eqs
    let r2 := collectArgs as r1.nextIdx r1.cache r1.eqs
    ⟨r2.nextIdx, r1.nameC :: r2.names, r2.cache, r2.eqs⟩
end

/-- The top-level encoding call collect_subterms(term, 0) (line 253)
with empty cache and empty accumulated lists; the result is the ordered
list of emitted goal equations. -/
def collectTop (t : Formula) : List (List Char × List Char) :=
  (collectSub t 0 [] []).eqs

/- =====================================================================
   Resolver (lines 366-433).
   ===================================================================== -/

/-- A worklist entry as pushed on the heap: (size, goal label, value)
(lines 384, 387, 415, 426). -/
abbrev Entry := Nat × List Char × Formula

/-- Lexicographic strict comparison of strings, as the Python operator
less-than compares them (code point order). -/
def charsLtB : List Char → List Char → Bool
  | [], [] => false
  | [], _ :: _ => true
  | _ :: _, [] => false
  | a :: as, b :: bs => if a < b then true else if a == b then charsLtB as bs else false

/-- Non-strict lexicographic comparison of heap entries, mirroring
Python tuple comparison (int, str, Formula) where Formula.__lt__
(line 82-83) compares printed forms.  heapq always removes a minimal
entry under this order. -/
def entryLeB (e f : Entry) : Bool :=
  if e.1 < f.1 then true
  else if e.1 == f.1 then
    if charsLtB e.2.1 f.2.1 then true
    else if e.2.1 == f.2.1 then
      charsLtB (reprF e.2.2) (reprF f.2.2) || reprF e.2.2 == reprF f.2.2
    else false
  else false

/-- Removal of a minimal element from the queue (heapq.heappop); among
equal-key entries the leftmost is taken, a deterministic refinement of
the heap contract that matters only when two entries compare equal in
all three components. -/
def popMin : List Entry → Option (Entry × List Entry)
  | [] => none
  | e :: es =>
    match popMin es with
    | none => some (e, [])
    | some (m, rest) => if entryLeB e m then some (e, es) else some (m, e :: rest)

/-- Lookup in the resolution dict subst (string keys). -/
def lookupS : List (List Char × Formula) → List Char → Option Formula
  | [], _ => none
  | (k, v) :: rest, g => if k == g then some v else lookupS rest g

/-- Parsing and self-reference pre-filter of the extracted pairs
(lines 366-376): both sides are parsed with assert rest == "", and a
pair is DISCARDED when one side's identifier prefix-matches goal\d+
(bare or not: lhs.id is checked without an arity test) and the other
side contains that identifier anywhere. -/
def preparePairs : List (List Char × List Char) → Except PyErr (List (Formula × Formula))
  | [] => .ok []
  | (ls, rs) :: rest =>
    match parse_formula ls with
    | .error e => .error e
    | .ok (_, _ :: _) => .error .assertionError
    | .ok (lhs, []) =>
      match parse_formula rs with
      | .error e => .error e
      | .ok (_, _ :: _) => .error .assertionError
      | .ok (rhs, []) =>
        match preparePairs rest with
        | .error e => .error e
        | .ok tail =>
          if (patternB (idOf lhs) && containsLabel rhs (idOf lhs)) ||
             (patternB (idOf rhs) && containsLabel lhs (idOf rhs)) then
            .ok tail
          else
            .ok ((lhs, rhs) :: tail)

/-- Initial classification (lines 378-389): a pair with a ground rhs
must have a goal-leaf lhs (assert, line 383) and is scheduled with
priority (size(rhs), lhs.id) and value rhs; symmetrically for a ground
lhs (assert, line 386); pairs with no ground side enter the pending
set. -/
def classifyPairs : List (Formula × Formula) → Except PyErr (List Entry × List (Formula × Formula))
  | [] => .ok ([], [])
  | (lhs, rhs) :: rest =>
    if groundF rhs then
      if isGoalF lhs then
        match classifyPairs rest with
        | .error e => .error e
        | .ok p => .ok ((sizeF rhs, idOf lhs, rhs) :: p.1, p.2)
      else .error .assertionError
    else if groundF lhs then
      if isGoalF rhs then
        match classifyPairs rest with
        | .error e => .error e
        | .ok p => .ok ((sizeF lhs, idOf rhs, lhs) :: p.1, p.2)
      else .error .assertionError
    else
      match classifyPairs rest with
      | .error e => .error e
      | .ok p => .ok (p.1, (lhs, rhs) :: p.2)

/-- One round over the pending set after committing g -> t
(lines 402-433): substitute g by t on both sides, schedule pairs that
became ground on one side with a goal leaf on the other, silently drop
pairs that became ground with a non-goal other side (lines 417-423 and
427-430), and keep the rest pending.  The guard lhs == g or rhs == g at
line 404 compares a Formula with a str and Formula.__eq__ (lines 68-71)
returns False for a non-Formula operand, so the guard never fires and
is omitted here.  Returns (pushed entries, new pending set) in
iteration order. -/
def processRem (g : List Char) (t : Formula) : List (Formula × Formula) → List Entry × List (Formula × Formula)
  | [] => ([], [])
  | (lhs, rhs) :: rest =>
    let nl := replaceF g t lhs
    let nr := replaceF g t rhs
    let p := processRem g t rest
    if groundF nr then
      if isGoalF nl then ((sizeF nr, idOf nl, nr) :: p.1, p.2)
      else p
    else if groundF nl then
      if isGoalF nr then ((sizeF nl, idOf nr, nl) :: p.1, p.2)
      else p
    else (p.1, (nl, nr) :: p.2)

/-- Full log of one resolution run: the final resolution dict (as a
cons-front association list: commits are only made for labels not yet
bound, so first-match lookup equals Python dict lookup), the final
pending set, every entry pushed during the loop, the commits in order,
and a snapshot of the pending set after each commit. -/
structure RLog where
  subst : List (List Char × Formula)
  finalRem : List (Formula × Formula)
  pushes : List Entry
  commits : List (List Char × Formula)
  rems : List (List (Formula × Formula))

/-- The worklist loop (lines 394-433), fuel-indexed, expressed on the
result of the current heappop: a none pop means the queue was empty and
the loop ends; on a popped entry whose label is already bound the entry
is discarded (lines 397-399); otherwise the binding is committed
(line 401) and the pending set rebuilt (lines 402-433).  The assert
is_ground(t) at line 396 never fires: it is discharged by the invariant
that every scheduled value is ground (loopGo_wf below).  Any fuel at
least queue length + pending size + 1 runs the loop to completion; the
theorems below hold for every fuel. -/
def loopGo : Nat → Option (Entry × List Entry) → List (List Char × Formula) → List (Formula × Formula) → RLog
  | 0, _, s, r => ⟨s, r, [], [], []⟩
  | Nat.succ _, none, s, r => ⟨s, r, [], [], []⟩
  | Nat.succ fuel, some (e, q'), s, r =>
    if (lookupS s e.2.1).isSome then loopGo fuel (popMin q') s r
    else
      let pr := processRem e.2.1 e.2.2 r
      let out := loopGo fuel (popMin (q' ++ pr.1)) ((e.2.1, e.2.2) :: s) pr.2
      ⟨out.subst, out.finalRem, pr.1 ++ out.pushes, (e.2.1, e.2.2) :: out.commits, pr.2 :: out.rems⟩

/-- The worklist loop started on a queue. -/
def loopR (fuel : Nat) (q : List Entry) (s : List (List Char × Formula))
    (r : List (Formula × Formula)) : RLog :=
  loopGo fuel (popMin q) s r

/- =====================================================================
   Completion and reporting (lines 435-459).
   ===================================================================== -/

/-- Comparison of a Formula with a string, as evaluated by the Python
expressions lhs == "goal0" (line 453) and "goal0" in a list of Formula
objects (line 444): both directions delegate to Formula.__eq__
(lines 68-71), whose isinstance(other, Formula) test fails for a str,
so the result is always False. -/
def pyFormulaEqStr (f : Formula) (s : List Char) : Bool :=
  match f, s with
  | _, _ => false

/-- "goal0" in [l for l,r in subst_set] + [r for l,r in subst_set]
(line 444). -/
def pyStrInFormulas (s : List Char) (l : List Formula) : Bool :=
  l.any (fun f => pyFormulaEqStr f s)

/-- The best-effort scan over the final pending set (lines 451-457):
collect the opposite sides of pairs whose one side equals "goal0". -/
def bestEffortScan : List (Formula × Formula) → List Formula
  | [] => []
  | (lhs, rhs) :: rest =>
    if pyFormulaEqStr lhs "goal0".data then rhs :: bestEffortScan rest
    else if pyFormulaEqStr rhs "goal0".data then lhs :: bestEffortScan rest
    else bestEffortScan rest

/-- What the program reports after the loop (lines 439-459). -/
inductive FinalReport where
  | resolved (t : Formula)
  | noteNotInTwee
  | noteNoSubsts
  | bestEffortNone
deriving DecidableEq

/-- Completion step (lines 439-459): report the binding of goal0 if
present; otherwise, on the Twee path with goal0 absent from the sides
of subst_set (a test that always succeeds, see pyStrInFormulas), print
the not-found note; otherwise with an empty pair list print the
no-substitutions note; otherwise print the best-effort header and the
shortest scanned candidate - where a nonempty scan would crash with
TypeError, since min(goals, key=len) applies len() to a Formula
(line 459). -/
def completion (usedSubstFile : Bool) (pairs : List (Formula × Formula))
    (subst : List (List Char × Formula)) (rem : List (Formula × Formula)) :
    Except PyErr FinalReport :=
  match lookupS subst "goal0".data with
  | some t => .ok (.resolved t)
  | none =>
    if !usedSubstFile &&
       !(pyStrInFormulas "goal0".data (pairs.map Prod.fst ++ pairs.map Prod.snd)) then
      .ok .noteNotInTwee
    else if pairs.isEmpty then .ok .noteNoSubsts
    else
      match bestEffortScan rem with
      | [] => .ok .bestEffortNone
      | _ :: _ => .error .typeError

/-- The resolver pipeline on raw extracted string pairs: parse and
pre-filter (lines 366-376), classify (lines 378-389), run the worklist
loop to completion, and report (lines 439-459). -/
def runResolver (usedSubstFile : Bool) (raw : List (List Char × List Char)) :
    Except PyErr FinalReport := do
  let pairs ← preparePairs raw
  let p ← classifyPairs pairs
  let out := loopR (p.1.length + p.2.length + 1) p.1 [] p.2
  completion usedSubstFile pairs out.subst out.finalRem

/-- PATH 1 of the program (lines 141-189 then 366-459): extract pairs
from a saved substitution file and resolve them. -/
def runSubstitutionFilePath (lines : List (List Char)) : Except PyErr FinalReport := do
  let raw ← extractFileLines lines
  runResolver true raw

/- =====================================================================
   Predicates used to state the claims (spec side).
   ===================================================================== -/

/-- Characters legal inside identifiers for the round-trip property:
not a delimiter and not the space character removed before parsing. -/
def goodChar (c : Char) : Bool := !(c == '(' || c == ')' || c == ',' || c == ' ')

mutual
/-- Well-formed printable term: every identifier is free of the three
delimiters and of the space character, leaf identifiers are nonempty,
and every leaf is constructible (its numeric decoding does not raise,
which holds for every Formula object that exists in a Python run). -/
def wfF : Formula → Bool
  | .mk id [] => !id.isEmpty && id.all goodChar && leafDecodeOk id
  | .mk id (a :: as) => id.all goodChar && wfF a && wfL as
def wfL : List Formula → Bool
  | [] => true
  | a :: as => wfF a && wfL as
end

/-- A continuation on which the parser of a printed term must stop:
empty, or starting with a closing parenthesis or a comma. -/
def headCloseP (rest : List Char) : Prop :=
  rest = [] ∨ (∃ t, rest = ')' :: t) ∨ (∃ t, rest = ',' :: t)

/-- Property of a pending pair required by the amended self-reference
invariant: no side is a goal leaf whose identifier occurs as a leaf of
the opposite side. -/
def srfP (p : Formula × Formula) : Prop :=
  (isGoalF p.1 = true → containsLeaf p.2 (idOf p.1) = false) ∧
  (isGoalF p.2 = true → containsLeaf p.1 (idOf p.2) = false)

/-- Well-formedness of a worklist entry: value ground, stored priority
equal to the value's size, label prefix-matching goal\d+. -/
def wfE (e : Entry) : Prop :=
  groundF e.2.2 = true ∧ e.1 = sizeF e.2.2 ∧ patternB e.2.1 = true

/-- Both sides of a pending pair are non-ground. -/
def nonG (p : Formula × Formula) : Prop :=
  groundF p.1 = false ∧ groundF p.2 = false

/- =====================================================================
   Helper lemmas.
   ===================================================================== -/

theorem sizeF_pos (t : Formula) : 1 ≤ sizeF t := by
  cases t with
  | mk id args => simp [sizeF]

theorem word_split (p : Char → Bool) :
    ∀ (id rest : List Char), (∀ c ∈ id, p c = true) →
    (rest = [] ∨ ∃ d t2, rest = d :: t2 ∧ p d = false) →
    (id ++ rest).takeWhile p = id ∧ (id ++ rest).dropWhile p = rest := by
  intro id
  induction id with
  | nil =>
    intro rest _ h2
    rcases h2 with h2 | ⟨d, t2, h2, hd⟩
    · subst h2
      simp [List.takeWhile, List.dropWhile]
    · subst h2
      simp [List.takeWhile, List.dropWhile, hd]
  | cons c cs ih =>
    intro rest h1 h2
    have hc : p c = true := h1 c (by simp)
    have := ih rest (fun x hx => h1 x (by simp [hx])) h2
    simp [List.takeWhile, List.dropWhile, hc, this.1, this.2]

/- =====================================================================
   C1.  The flattening encoder emits children's equations before the
   parent's: the equation defining goal0 is the LAST element of the
   emitted list, not the first.
   ===================================================================== -/

/-- C1 (counterexample): encoding f(g(a)) emits the equation for goal1
first and the root equation for goal0 last, so the root's equation is
not first in the list. -/
theorem c1_counterexample :
    collectTop (.mk "f".data [.mk "g".data [.mk "a".data []]]) =
      [("goal1".data, "g(a)".data), ("goal0".data, "f(goal1)".data)] ∧
    ((collectTop (.mk "f".data [.mk "g".data [.mk "a".data []]])).map Prod.fst).head? =
      some "goal1".data := by
  exact ⟨by decide, by decide⟩

/-- C1 (amended): the encoder emits equations in post-order - every
node's equation is appended after those of its children - so the
emitted list is always nonempty and its LAST element is the root's
equation, the one defining goal0. -/
theorem c1_root_equation_emitted_last (t : Formula) :
    collectTop t ≠ [] ∧ ((collectTop t).map Prod.fst).getLast? = some "goal0".data := by
  cases t with
  | mk id args =>
    have h0 : lookupC [] (reprF (.mk id args)) = none := rfl
    have hgz : "goal".data ++ natToChars 0 = "goal0".data := by decide
    simp only [collectTop, collectSub, h0]
    have hcond : (decide (0 > 0) && args.isEmpty) = false := by simp
    rw [hcond]
    simp only [Bool.false_eq_true, if_false, hgz]
    constructor
    · simp
    · rw [List.map_append]
      simp

/- =====================================================================
   C2.  The best-effort recovery scan compares parsed Formula objects
   with the string "goal0"; Formula.__eq__ returns False for non-Formula
   operands, so the scan never finds a candidate and the best-effort
   branch never reports a term.
   ===================================================================== -/

/-- C2: the best-effort scan is empty on EVERY pending set, and on the
concrete substitution-file input whose only line is
goal0 -> f(goal1) - where goal0 is unbound after the loop and the
pending set does mention goal0 on one side - the program prints the
best-effort header followed by no answer at all, instead of reporting
f(goal1). -/
theorem c2_best_effort_never_reports :
    (∀ rem, bestEffortScan rem = []) ∧
    runSubstitutionFilePath ["goal0 -> f(goal1)".data] = .ok .bestEffortNone := by
  constructor
  · intro rem
    induction rem with
    | nil => rfl
    | cons p rest ih =>
      cases p with
      | mk lhs rhs => simp [bestEffortScan, pyFormulaEqStr, ih]
  · decide

/- =====================================================================
   C5.  Unbalanced parentheses crash the parser with IndexError (s[0] on
   an empty string, lines 97 and 103), not with the ParseError the spec
   requires; no ParseError class even exists in the program.
   ===================================================================== -/

/-- C5: on the unbalanced inputs f(, f(a and f(a, the parser raises
IndexError - an out-of-range indexing fault - and not the generic
parsing-error exception of the top-level caller (raised only for a
nonempty remainder, as in f(a)) ). -/
theorem c5_unbalanced_raises_indexerror :
    parse_formula "f(".data = .error .indexError ∧
    parse_formula "f(a".data = .error .indexError ∧
    parse_formula "f(a,".data = .error .indexError ∧
    parseTop "f(a))".data = .error .parseError ∧
    PyErr.indexError ≠ PyErr.parseError := by
  exact ⟨by decide, by decide, by decide, by decide, by decide⟩

/- =====================================================================
   C9.  is_var is not equivalent to "leaf with all-uppercase id": the
   numeric-prefix branches of __init__ run first and leave is_var
   False even for an all-uppercase identifier such as NUM5.
   ===================================================================== -/

/-- C9 (counterexample): NUM5 constructs a 0-arity term, its identifier
equals its own uppercasing, yet is_var is False. -/
theorem c9_counterexample :
    mkChecked "NUM5".data [] = .ok (.mk "NUM5".data []) ∧
    argsOf (.mk "NUM5".data []) = [] ∧
    upperChars "NUM5".data = "NUM5".data ∧
    isVarF (.mk "NUM5".data []) = false := by
  exact ⟨by decide, by decide, by decide, by decide⟩

/-- C9 (amended): for every successfully constructed term, is_var is
true iff the term is a leaf, its lowercased identifier starts with
neither numneg/negnum nor num, and the identifier equals its own
uppercasing. -/
theorem c9_is_var_characterisation : ∀ (id : List Char) (args : List Formula) (f : Formula),
    mkChecked id args = .ok f →
    (isVarF f = true ↔
      args = [] ∧
      (startsWithL (lowerChars id) "numneg".data || startsWithL (lowerChars id) "negnum".data) = false ∧
      startsWithL (lowerChars id) "num".data = false ∧
      (upperChars id == id) = true) := by
  intro id args f h
  cases args with
  | nil =>
    simp only [mkChecked] at h
    split at h
    · rename_i hdec
      injection h with h
      subst h
      simp only [isVarF, Bool.and_eq_true, Bool.not_eq_true']
      constructor
      · intro hv
        exact ⟨by simp, hv.1.1, hv.1.2, hv.2⟩
      · intro hv
        exact ⟨⟨hv.2.1, hv.2.2.1⟩, hv.2.2.2⟩
    · exact absurd h (by simp)
  | cons a as =>
    simp only [mkChecked] at h
    injection h with h
    subst h
    simp [isVarF]

/-- C9 (witness for the characterisation): the leaf X is constructible
and is a variable. -/
theorem c9_witness :
    mkChecked "X".data [] = .ok (.mk "X".data []) ∧ isVarF (.mk "X".data []) = true := by
  have h := c9_is_var_characterisation "X".data [] (.mk "X".data []) (by decide)
  exact ⟨by decide, h.mpr (by decide)⟩

theorem exceptBindOk {e a b : Type} (x : a) (f : a → Except e b) :
    (Except.ok x >>= f) = f x := rfl

theorem exceptBindErr {e a b : Type} (x : e) (f : a → Except e b) :
    ((Except.error x : Except e a) >>= f) = Except.error x := rfl

theorem goodChar_split (c : Char) (h : goodChar c = true) :
    isDelim c = false ∧ (c == ' ') = false := by
  simp only [goodChar, Bool.not_eq_eq_eq_not, Bool.not_true, Bool.or_eq_false_iff] at h
  simp only [isDelim, Bool.or_eq_false_iff]
  exact ⟨h.1, h.2⟩

/- =====================================================================
   C4.  The extraction filters keep a line iff one RAW side
   prefix-matches goal\d+; the sides are not parsed and the match is not
   anchored at the end, so sides like "goal1x" or "goal1(a)" that do not
   parse to bare goal-label leaves are retained.
   ===================================================================== -/

theorem finishPair_some (l r : List Char) (p : List Char × List Char)
    (h : finishPair l r = .ok (some p)) : (patternB p.1 || patternB p.2) = true := by
  simp only [finishPair] at h
  split at h
  · simp at h
  · split at h
    · rename_i hpat
      simp only [Except.ok.injEq, Option.some.injEq] at h
      subst h
      exact hpat
    · simp at h

/-- C4 (amended): a line with a separator is retained by either
extraction filter only if, AFTER stripping, at least one side - as raw
text, without parsing - begins with "goal" followed by a digit (the
anchored-at-start regex match of line 179/321). -/
theorem c4_retention_necessity : ∀ (line : List Char) (p : List Char × List Char),
    (lineFilterRaw line = .ok (some p) ∨ lineFilterFile line = .ok (some p)) →
    (patternB p.1 || patternB p.2) = true := by
  intro line p h
  rcases h with h | h
  · simp only [lineFilterRaw] at h
    split at h
    · simp at h
    · split at h
      · split at h
        · exact finishPair_some _ _ _ h
        · simp at h
      · split at h
        · split at h
          · exact finishPair_some _ _ _ h
          · simp at h
        · simp at h
  · simp only [lineFilterFile] at h
    split at h
    · simp at h
    · split at h
      · split at h
        · exact finishPair_some _ _ _ h
        · simp at h
      · split at h
        · split at h
          · exact finishPair_some _ _ _ h
          · simp at h
        · simp at h

/-- C4 (witness): the well-formed line goal1 -> a is retained and its
left side prefix-matches the pattern. -/
theorem c4_witness :
    lineFilterRaw "goal1 -> a".data = .ok (some ("goal1".data, "a".data)) ∧
    (patternB "goal1".data || patternB "a".data) = true := by
  exact ⟨by decide,
    c4_retention_necessity "goal1 -> a".data ("goal1".data, "a".data) (Or.inl (by decide))⟩

/-- C4 (counterexample): the line goal1x -> a is retained by the raw
extraction filter although neither side parses to a bare goal-label
leaf (a leaf whose whole identifier is goal followed by digits): the
left side parses to the leaf goal1x and the right to the leaf a. -/
theorem c4_counterexample :
    lineFilterRaw "goal1x -> a".data = .ok (some ("goal1x".data, "a".data)) ∧
    parseTop "goal1x".data = .ok (.mk "goal1x".data []) ∧
    parseTop "a".data = .ok (.mk "a".data []) ∧
    bareGoalLabelB (.mk "goal1x".data []) = false ∧
    bareGoalLabelB (.mk "a".data []) = false := by
  exact ⟨by decide, by decide, by decide, by decide, by decide⟩

/- =====================================================================
   C3.  Initial classification: ground-side pairs are scheduled as the
   claim states, but a pair with one ground side and a non-goal other
   side hits an assert and raises AssertionError instead of entering
   the pending set; only pairs with NO ground side go pending.
   ===================================================================== -/

/-- C3 (counterexample): the pair f(a) -> goal1(b) passes the extractor
(the right side prefix-matches goal\d+) and the self-reference
pre-filter, its right side is ground (is_ground never looks at the head
identifier goal1), its left side is not a goal leaf, and classification
raises AssertionError (line 383) instead of sending it to the pending
set. -/
theorem c3_counterexample :
    lineFilterFile "f(a) -> goal1(b)".data = .ok (some ("f(a)".data, "goal1(b)".data)) ∧
    preparePairs [("f(a)".data, "goal1(b)".data)] =
      .ok [(.mk "f".data [.mk "a".data []], .mk "goal1".data [.mk "b".data []])] ∧
    groundF (.mk "goal1".data [.mk "b".data []]) = true ∧
    isGoalF (.mk "f".data [.mk "a".data []]) = false ∧
    classifyPairs [(.mk "f".data [.mk "a".data []], .mk "goal1".data [.mk "b".data []])] =
      .error .assertionError := by
  exact ⟨by decide, by decide, by decide, by decide, by decide⟩

/-- C3 (amended): when classification SUCCEEDS, every pair behaves as
the claim describes - a ground right side forces a goal-leaf left side
scheduled with priority (size, label), symmetrically for a ground left
side, and a pair with no ground side enters the pending set; a pair
violating the goal-leaf expectation does not go pending but aborts the
whole classification with AssertionError (c3_counterexample). -/
theorem c3_classification_characterised :
    ∀ (pairs : List (Formula × Formula)) (q : List Entry) (rem : List (Formula × Formula)),
    classifyPairs pairs = .ok (q, rem) →
    ∀ A B, (A, B) ∈ pairs →
      (groundF B = true → isGoalF A = true ∧ (sizeF B, idOf A, B) ∈ q) ∧
      (groundF B = false → groundF A = true → isGoalF B = true ∧ (sizeF A, idOf B, A) ∈ q) ∧
      (groundF B = false → groundF A = false → (A, B) ∈ rem) := by
  intro pairs
  induction pairs with
  | nil =>
    intro q rem h A B hm
    simp at hm
  | cons hd tl ih =>
    obtain ⟨L, R⟩ := hd
    intro q rem h A B hm
    simp only [classifyPairs] at h
    split at h
    · rename_i hgR
      split at h
      · rename_i hgoalL
        split at h
        · simp at h
        · rename_i p hp
          simp only [Except.ok.injEq, Prod.mk.injEq] at h
          obtain ⟨hq, hr⟩ := h
          subst hq
          subst hr
          rcases List.mem_cons.mp hm with heq | hmem
          · obtain ⟨hA, hB⟩ := Prod.mk.injEq .. ▸ heq
            subst hA
            subst hB
            refine ⟨fun _ => ⟨hgoalL, List.mem_cons_self _ _⟩, fun hc => ?_, fun hc => ?_⟩
            · rw [hgR] at hc; exact absurd hc (by simp)
            · rw [hgR] at hc; exact absurd hc (by simp)
          · have h3 := ih p.1 p.2 (by rw [hp]) A B hmem
            refine ⟨fun hg => ⟨(h3.1 hg).1, List.mem_cons_of_mem _ (h3.1 hg).2⟩,
                    fun hg hg2 => ⟨(h3.2.1 hg hg2).1, List.mem_cons_of_mem _ (h3.2.1 hg hg2).2⟩,
                    fun hg hg2 => h3.2.2 hg hg2⟩
      · simp at h
    · rename_i hgR
      split at h
      · rename_i hgL
        split at h
        · rename_i hgoalR
          split at h
          · simp at h
          · rename_i p hp
            simp only [Except.ok.injEq, Prod.mk.injEq] at h
            obtain ⟨hq, hr⟩ := h
            subst hq
            subst hr
            rcases List.mem_cons.mp hm with heq | hmem
            · obtain ⟨hA, hB⟩ := Prod.mk.injEq .. ▸ heq
              subst hA
              subst hB
              have hgRf : groundF B = false := by
                cases hx : groundF B with
                | false => rfl
                | true => exact absurd hx hgR
              refine ⟨fun hc => absurd hc hgR, fun _ _ => ⟨hgoalR, List.mem_cons_self _ _⟩,
                      fun _ hc => ?_⟩
              · rw [hgL] at hc; exact absurd hc (by simp)
            · have h3 := ih p.1 p.2 (by rw [hp]) A B hmem
              refine ⟨fun hg => ⟨(h3.1 hg).1, List.mem_cons_of_mem _ (h3.1 hg).2⟩,
                      fun hg hg2 => ⟨(h3.2.1 hg hg2).1, List.mem_cons_of_mem _ (h3.2.1 hg hg2).2⟩,
                      fun hg hg2 => h3.2.2 hg hg2⟩
        · simp at h
      · rename_i hgL
        split at h
        · simp at h
        · rename_i p hp
          simp only [Except.ok.injEq, Prod.mk.injEq] at h
          obtain ⟨hq, hr⟩ := h
          subst hq
          subst hr
          rcases List.mem_cons.mp hm with heq | hmem
          · obtain ⟨hA, hB⟩ := Prod.mk.injEq .. ▸ heq
            subst hA
            subst hB
            refine ⟨fun hc => absurd hc hgR, fun _ hc => absurd hc hgL,
                    fun _ _ => List.mem_cons_self _ _⟩
          · have h3 := ih p.1 (p.2) (by rw [hp]) A B hmem
            refine ⟨fun hg => h3.1 hg, fun hg hg2 => h3.2.1 hg hg2,
                    fun hg hg2 => List.mem_cons_of_mem _ (h3.2.2 hg hg2)⟩

/-- C3 (witness): the pair (goal1, f(a)) has a ground right side and a
goal-leaf left side and is scheduled with priority (2, goal1). -/
theorem c3_witness :
    isGoalF (.mk "goal1".data []) = true ∧
    (2, "goal1".data, Formula.mk "f".data [.mk "a".data []]) ∈
      [(2, "goal1".data, Formula.mk "f".data [.mk "a".data []])] := by
  have h := c3_classification_characterised
    [(.mk "goal1".data [], .mk "f".data [.mk "a".data []])]
    [(2, "goal1".data, .mk "f".data [.mk "a".data []])] []
    (by decide) (.mk "goal1".data []) (.mk "f".data [.mk "a".data []]) (by decide)
  exact h.1 (by decide)

/- =====================================================================
   C10.  A 0-arity identifier whose lowercasing starts with
   numneg/negnum (suffix id[6:]) or num (suffix id[3:]) but whose
   suffix int() rejects raises ValueError at construction, and the
   ValueError propagates out of any parse that builds such a leaf.
   ===================================================================== -/

/-- C10: constructing a leaf with a num-like prefix and a non-numeral
suffix yields ValueError, and parsing an input consisting of such an
identifier (no delimiters or spaces in it) fails with the same
ValueError rather than producing a term. -/
theorem c10_nonnumeral_num_leaf_valueerror : ∀ id : List Char,
    (((startsWithL (lowerChars id) "numneg".data || startsWithL (lowerChars id) "negnum".data) = true ∧
      pyIntOk (id.drop 6) = false) ∨
     ((startsWithL (lowerChars id) "numneg".data || startsWithL (lowerChars id) "negnum".data) = false ∧
      startsWithL (lowerChars id) "num".data = true ∧
      pyIntOk (id.drop 3) = false)) →
    mkChecked id [] = .error .valueError ∧
    (id.all goodChar = true → parseTop id = .error .valueError) := by
  intro id hid
  have hdec : leafDecodeOk id = false := by
    unfold leafDecodeOk
    rcases hid with ⟨h1, h2⟩ | ⟨h1, h2, h3⟩
    · rw [h1]
      simp [h2]
    · rw [h1]
      simp [h2, h3]
  have hmk : mkChecked id [] = .error .valueError := by
    simp [mkChecked, hdec]
  refine ⟨hmk, ?_⟩
  intro hgood
  have hall : ∀ c ∈ id, goodChar c = true := by
    intro c hc
    exact List.all_eq_true.mp hgood c hc
  have hstrip : stripSpaces id = id := by
    unfold stripSpaces
    apply List.filter_eq_self.mpr
    intro c hc
    have := (goodChar_split c (hall c hc)).2
    simp only [bne, this]
    rfl
  have hword := word_split (fun c => !isDelim c) id []
    (fun c hc => by simp [(goodChar_split c (hall c hc)).1]) (Or.inl rfl)
  rw [List.append_nil] at hword
  unfold parseTop parse_formula
  rw [hstrip]
  have hfuel : parseFuel id = Nat.succ (2 * id.length + 1) := rfl
  rw [hfuel]
  simp only [parseCore]
  rw [hword.1, hword.2]
  simp only [parseAfterWord]
  rw [hmk, exceptBindErr]

/-- C10 (witness): the leaf identifier number - lowercased prefix num,
suffix ber rejected by int() - raises ValueError from the constructor
and from the parser. -/
theorem c10_witness :
    mkChecked "number".data [] = .error .valueError ∧
    parseTop "number".data = .error .valueError := by
  have h := c10_nonnumeral_num_leaf_valueerror "number".data
    (Or.inr ⟨by decide, by decide, by decide⟩)
  exact ⟨h.1, h.2 (by decide)⟩

/- =====================================================================
   C8.  Round trip print-then-parse.
   ===================================================================== -/

/-- C8 (counterexample): the term f with the single empty-identifier
leaf child has identifiers free of the three delimiters and of spaces,
prints as f(), and re-parses to the CHILDLESS leaf f - not to a
structurally identical term. -/
theorem c8_counterexample :
    reprF (.mk "f".data [.mk [] []]) = "f()".data ∧
    parseTop (reprF (.mk "f".data [.mk [] []])) = .ok (.mk "f".data []) ∧
    Formula.mk "f".data [] ≠ Formula.mk "f".data [.mk [] []] ∧
    (∀ c ∈ "f".data, goodChar c = true) := by
  exact ⟨by decide, by decide, by decide, by decide⟩

theorem reprF_head (t : Formula) (h : wfF t = true) :
    ∃ c cs, reprF t = c :: cs ∧ ¬(c = ')') := by
  cases t with
  | mk id args =>
    cases args with
    | nil =>
      simp only [wfF, Bool.and_eq_true] at h
      obtain ⟨⟨hne, hgood⟩, _⟩ := h
      cases id with
      | nil => simp at hne
      | cons c cs =>
        refine ⟨c, cs, rfl, ?_⟩
        intro hc
        subst hc
        have := (goodChar_split ')' (List.all_eq_true.mp hgood ')' (by simp))).1
        simp [isDelim] at this
    | cons a as =>
      cases id with
      | nil => exact ⟨'(', reprArgs (a :: as) ++ [')'], by simp [reprF], by decide⟩
      | cons c cs =>
        simp only [wfF, Bool.and_eq_true] at h
        refine ⟨c, cs ++ '(' :: (reprArgs (a :: as) ++ [')']), by simp [reprF], ?_⟩
        intro hc
        subst hc
        have := (goodChar_split ')' (List.all_eq_true.mp h.1.1 ')' (by simp))).1
        simp [isDelim] at this

mutual
theorem reprF_no_space : ∀ (t : Formula), wfF t = true → ∀ c ∈ reprF t, (c == ' ') = false
  | .mk id [], h, c, hc => by
    simp only [wfF, Bool.and_eq_true] at h
    simp only [reprF] at hc
    exact (goodChar_split c (List.all_eq_true.mp h.1.2 c hc)).2
  | .mk id (a :: as), h, c, hc => by
    simp only [wfF, Bool.and_eq_true] at h
    simp only [reprF] at hc
    rcases List.mem_append.mp hc with hc | hc
    · exact (goodChar_split c (List.all_eq_true.mp h.1.1 c hc)).2
    · rcases List.mem_cons.mp hc with hc | hc
      · subst hc
        rfl
      · rcases List.mem_append.mp hc with hc | hc
        · exact reprArgs_no_space (a :: as) (by simp [wfL, h.1.2, h.2]) c hc
        · rcases List.mem_cons.mp hc with hc | hc
          · subst hc
            rfl
          · simp at hc
theorem reprArgs_no_space : ∀ (ts : List Formula), wfL ts = true → ∀ c ∈ reprArgs ts, (c == ' ') = false
  | [], _, c, hc => by simp [reprArgs] at hc
  | [a], h, c, hc => by
    simp only [wfL, Bool.and_eq_true] at h
    simp only [reprArgs] at hc
    exact reprF_no_space a h.1 c hc
  | a :: b :: ts, h, c, hc => by
    simp only [wfL, Bool.and_eq_true] at h
    simp only [reprArgs] at hc
    rcases List.mem_append.mp hc with hc | hc
    · exact reprF_no_space a h.1 c hc
    · rcases List.mem_cons.mp hc with hc | hc
      · subst hc
        rfl
      · exact reprArgs_no_space (b :: ts) (by simp [wfL, h.2.1, h.2.2]) c hc
end

theorem parseCore_succ (fuel : Nat) (s : List Char) :
    parseCore (Nat.succ fuel) s =
      parseAfterWord fuel (s.takeWhile (fun c => !isDelim c)) (s.dropWhile (fun c => !isDelim c)) := rfl

theorem parseAfterWord_nil (fuel : Nat) (word : List Char) :
    parseAfterWord fuel word [] = (do
      let f ← mkChecked word []
      Except.ok (f, [])) := by
  cases fuel with
  | zero => rfl
  | succ n => rfl

theorem parseAfterWord_open (fuel : Nat) (word cs : List Char) :
    parseAfterWord (Nat.succ fuel) word ('(' :: cs) = (do
      let p ← parseArgsCore fuel cs
      let f ← mkChecked word p.1
      Except.ok (f, p.2)) := rfl

theorem parseAfterWord_close (fuel : Nat) (word cs : List Char) :
    parseAfterWord (Nat.succ fuel) word (')' :: cs) = (do
      let f ← mkChecked word []
      Except.ok (f, ')' :: cs)) := rfl

theorem parseAfterWord_commaHead (fuel : Nat) (word cs : List Char) :
    parseAfterWord (Nat.succ fuel) word (',' :: cs) = (do
      let f ← mkChecked word []
      Except.ok (f, ',' :: cs)) := rfl

theorem parseArgsCore_close (fuel : Nat) (rest : List Char) :
    parseArgsCore (Nat.succ fuel) (')' :: rest) = .ok ([], rest) := rfl

theorem parseAfterArg_close (fuel : Nat) (arg : Formula) (ds : List Char) :
    parseAfterArg (Nat.succ fuel) arg (')' :: ds) = (do
      let q ← parseArgsCore fuel (')' :: ds)
      Except.ok (arg :: q.1, q.2)) := rfl

theorem parseAfterArg_comma (fuel : Nat) (arg : Formula) (ds : List Char) :
    parseAfterArg (Nat.succ fuel) arg (',' :: ds) = (do
      let q ← parseArgsCore fuel ds
      Except.ok (arg :: q.1, q.2)) := rfl

mutual
theorem rtCore : ∀ (t : Formula) (fuel : Nat) (rest : List Char), wfF t = true → headCloseP rest →
    2 * (reprF t).length + 2 ≤ fuel → parseCore fuel (reprF t ++ rest) = .ok (t, rest)
  | .mk id [], fuel, rest, hwf, hrest, hfuel => by
    obtain ⟨f1, hf⟩ : ∃ f1, fuel = Nat.succ (Nat.succ f1) := ⟨fuel - 2, by omega⟩
    subst hf
    simp only [wfF, Bool.and_eq_true] at hwf
    obtain ⟨⟨hne, hgood⟩, hdecode⟩ := hwf
    have hall : ∀ c ∈ id, (fun c => !isDelim c) c = true := by
      intro c hc
      simp [(goodChar_split c (List.all_eq_true.mp hgood c hc)).1]
    have hmk : mkChecked id [] = .ok (.mk id []) := by simp [mkChecked, hdecode]
    simp only [reprF]
    rcases hrest with h | ⟨t2, h⟩ | ⟨t2, h⟩
    · subst h
      have hword := word_split (fun c => !isDelim c) id [] hall (Or.inl rfl)
      rw [List.append_nil] at hword
      rw [List.append_nil, parseCore_succ, hword.1, hword.2, parseAfterWord_nil, hmk,
          exceptBindOk]
    · subst h
      have hword := word_split (fun c => !isDelim c) id (')' :: t2) hall
        (Or.inr ⟨')', t2, rfl, by decide⟩)
      rw [parseCore_succ, hword.1, hword.2, parseAfterWord_close, hmk, exceptBindOk]
    · subst h
      have hword := word_split (fun c => !isDelim c) id (',' :: t2) hall
        (Or.inr ⟨',', t2, rfl, by decide⟩)
      rw [parseCore_succ, hword.1, hword.2, parseAfterWord_commaHead, hmk, exceptBindOk]
  | .mk id (a :: as), fuel, rest, hwf, hrest, hfuel => by
    have hlen : (reprF (.mk id (a :: as))).length = id.length + (reprArgs (a :: as)).length + 2 := by
      simp [reprF]
      omega
    rw [hlen] at hfuel
    obtain ⟨f2, hf⟩ : ∃ f2, fuel = Nat.succ (Nat.succ f2) := ⟨fuel - 2, by omega⟩
    subst hf
    simp only [wfF, Bool.and_eq_true] at hwf
    obtain ⟨⟨hgood, hwa⟩, hwl⟩ := hwf
    have hshape : reprF (.mk id (a :: as)) ++ rest =
        id ++ '(' :: (reprArgs (a :: as) ++ ')' :: rest) := by
      simp [reprF]
    have hall : ∀ c ∈ id, (fun c => !isDelim c) c = true := by
      intro c hc
      simp [(goodChar_split c (List.all_eq_true.mp hgood c hc)).1]
    have hword := word_split (fun c => !isDelim c) id ('(' :: (reprArgs (a :: as) ++ ')' :: rest))
      hall (Or.inr ⟨'(', reprArgs (a :: as) ++ ')' :: rest, rfl, by decide⟩)
    have hargs := rtArgs (a :: as) f2 rest (by simp [wfL, hwa, hwl]) (by omega)
    rw [hshape, parseCore_succ, hword.1, hword.2, parseAfterWord_open, hargs, exceptBindOk,
        show mkChecked id (a :: as) = Except.ok (Formula.mk id (a :: as)) from rfl, exceptBindOk]
theorem rtArgs : ∀ (ts : List Formula) (fuel : Nat) (rest : List Char), wfL ts = true →
    2 * (reprArgs ts).length + 3 ≤ fuel → parseArgsCore fuel (reprArgs ts ++ ')' :: rest) = .ok (ts, rest)
  | [], fuel, rest, _, hfuel => by
    obtain ⟨f1, hf⟩ : ∃ f1, fuel = Nat.succ f1 := ⟨fuel - 1, by omega⟩
    subst hf
    simp only [reprArgs, List.nil_append]
    exact parseArgsCore_close f1 rest
  | [a], fuel, rest, hwf, hfuel => by
    simp only [wfL, Bool.and_eq_true] at hwf
    obtain ⟨hwa, _⟩ := hwf
    obtain ⟨c, cs, hhead, hnotR⟩ := reprF_head a hwa
    have hlena : 1 ≤ (reprF a).length := by
      rw [hhead]
      simp
    have hlen : (reprArgs [a]).length = (reprF a).length := by simp [reprArgs]
    rw [hlen] at hfuel
    obtain ⟨f3, hf⟩ : ∃ f3, fuel = Nat.succ (Nat.succ (Nat.succ f3)) := ⟨fuel - 3, by omega⟩
    subst hf
    have hfa : 2 * (reprF a).length + 2 ≤ Nat.succ (Nat.succ f3) := by omega
    have hc := rtCore a (Nat.succ (Nat.succ f3)) (')' :: rest) hwa
      (Or.inr (Or.inl ⟨rest, rfl⟩)) hfa
    have hcons : reprArgs [a] ++ ')' :: rest = c :: (cs ++ ')' :: rest) := by
      simp [reprArgs, hhead]
    have hc' : parseCore (Nat.succ (Nat.succ f3)) (c :: (cs ++ ')' :: rest)) =
        .ok (a, ')' :: rest) := by
      rw [show c :: (cs ++ ')' :: rest) = reprF a ++ ')' :: rest from by rw [hhead]; simp]
      exact hc
    rw [hcons]
    simp only [parseArgsCore]
    rw [if_neg hnotR, hc', exceptBindOk]
    rw [parseAfterArg_close, parseArgsCore_close, exceptBindOk]
  | a :: b :: ts, fuel, rest, hwf, hfuel => by
    simp only [wfL, Bool.and_eq_true] at hwf
    obtain ⟨hwa, hwb, hwts⟩ := hwf
    obtain ⟨c, cs, hhead, hnotR⟩ := reprF_head a hwa
    have hlena : 1 ≤ (reprF a).length := by
      rw [hhead]
      simp
    have hlen : (reprArgs (a :: b :: ts)).length =
        (reprF a).length + (reprArgs (b :: ts)).length + 1 := by
      simp [reprArgs]
      omega
    rw [hlen] at hfuel
    obtain ⟨f2, hf⟩ : ∃ f2, fuel = Nat.succ (Nat.succ f2) := ⟨fuel - 2, by omega⟩
    subst hf
    have hfa : 2 * (reprF a).length + 2 ≤ Nat.succ f2 := by omega
    have hc := rtCore a (Nat.succ f2) (',' :: (reprArgs (b :: ts) ++ ')' :: rest)) hwa
      (Or.inr (Or.inr ⟨reprArgs (b :: ts) ++ ')' :: rest, rfl⟩)) hfa
    have hcons : reprArgs (a :: b :: ts) ++ ')' :: rest =
        c :: (cs ++ ',' :: (reprArgs (b :: ts) ++ ')' :: rest)) := by
      simp [reprArgs, hhead]
    have hc' : parseCore (Nat.succ f2) (c :: (cs ++ ',' :: (reprArgs (b :: ts) ++ ')' :: rest))) =
        .ok (a, ',' :: (reprArgs (b :: ts) ++ ')' :: rest)) := by
      rw [show c :: (cs ++ ',' :: (reprArgs (b :: ts) ++ ')' :: rest)) =
          reprF a ++ ',' :: (reprArgs (b :: ts) ++ ')' :: rest) from by rw [hhead]; simp]
      exact hc
    have hrec := rtArgs (b :: ts) f2 rest (by simp [wfL, hwb, hwts]) (by omega)
    rw [hcons]
    simp only [parseArgsCore]
    rw [if_neg hnotR, hc', exceptBindOk, parseAfterArg_comma, hrec, exceptBindOk]
end

/-- C8 (amended): for every constructible term whose identifiers are
free of the delimiters and of the space character AND whose leaf
identifiers are nonempty, printing and re-parsing yields the identical
term with an empty remainder.  (Nonemptiness is forced by
c8_counterexample: an empty-identifier leaf child prints to nothing and
is lost on re-parsing.) -/
theorem c8_round_trip (t : Formula) (h : wfF t = true) : parseTop (reprF t) = .ok t := by
  have hstrip : stripSpaces (reprF t) = reprF t := by
    unfold stripSpaces
    apply List.filter_eq_self.mpr
    intro c hc
    have := reprF_no_space t h c hc
    simp [bne, this]
  unfold parseTop parse_formula
  rw [hstrip]
  have hrt := rtCore t (parseFuel (reprF t)) [] h (Or.inl rfl) (by simp [parseFuel])
  rw [List.append_nil] at hrt
  rw [hrt]

/-- C8 (witness): the printable term plus(X,num3) round-trips. -/
theorem c8_witness :
    wfF (.mk "plus".data [.mk "X".data [], .mk "num3".data []]) = true ∧
    parseTop (reprF (.mk "plus".data [.mk "X".data [], .mk "num3".data []])) =
      .ok (.mk "plus".data [.mk "X".data [], .mk "num3".data []]) := by
  exact ⟨by decide, c8_round_trip _ (by decide)⟩

/- =====================================================================
   Resolver invariant lemmas.
   ===================================================================== -/

theorem isGoal_pattern (x : Formula) (h : isGoalF x = true) : patternB (idOf x) = true := by
  cases x with
  | mk id args =>
    cases args with
    | nil => simpa [isGoalF, idOf] using h
    | cons a as => simp [isGoalF] at h

theorem isGoal_not_ground (x : Formula) (h : isGoalF x = true) : groundF x = false := by
  cases x with
  | mk id args =>
    cases args with
    | nil =>
      simp only [isGoalF] at h
      simp [groundF, h]
    | cons a as => simp [isGoalF] at h

mutual
theorem ground_no_goal_leaf : ∀ (x : Formula), groundF x = true →
    ∀ g, patternB g = true → containsLeaf x g = false
  | .mk id [], hx, g, hg => by
    simp only [groundF, Bool.not_eq_eq_eq_not, Bool.not_true] at hx
    simp only [containsLeaf]
    cases hbeq : id == g with
    | false => rfl
    | true =>
      have : id = g := by simpa using hbeq
      subst this
      rw [hx] at hg
      exact absurd hg (by simp)
  | .mk id (a :: as), hx, g, hg => by
    simp only [groundF, Bool.and_eq_true] at hx
    simp only [containsLeaf, Bool.or_eq_false_iff]
    exact ⟨ground_no_goal_leaf a hx.1 g hg, groundL_no_goal_leaf as hx.2 g hg⟩
theorem groundL_no_goal_leaf : ∀ (l : List Formula), groundL l = true →
    ∀ g, patternB g = true → containsLeafL l g = false
  | [], _, _, _ => rfl
  | a :: as, hx, g, hg => by
    simp only [groundL, Bool.and_eq_true] at hx
    simp only [containsLeafL, Bool.or_eq_false_iff]
    exact ⟨ground_no_goal_leaf a hx.1 g hg, groundL_no_goal_leaf as hx.2 g hg⟩
end

mutual
theorem replace_size_ge : ∀ (x : Formula) (g : List Char) (t : Formula),
    containsLeaf x g = true → sizeF t ≤ sizeF (replaceF g t x)
  | .mk id [], g, t, hx => by
    simp only [containsLeaf] at hx
    simp only [replaceF, hx, if_true]
    exact Nat.le_refl _
  | .mk id (a :: as), g, t, hx => by
    simp only [containsLeaf, Bool.or_eq_true] at hx
    simp only [replaceF, sizeF, sizeL]
    rcases hx with hx | hx
    · have := replace_size_ge a g t hx
      omega
    · have := replaceL_size_ge as g t hx
      omega
theorem replaceL_size_ge : ∀ (l : List Formula) (g : List Char) (t : Formula),
    containsLeafL l g = true → sizeF t ≤ sizeL (replaceL g t l)
  | [], _, _, hx => by simp [containsLeafL] at hx
  | a :: as, g, t, hx => by
    simp only [containsLeafL, Bool.or_eq_true] at hx
    simp only [replaceL, sizeL]
    rcases hx with hx | hx
    · have := replace_size_ge a g t hx
      omega
    · have := replaceL_size_ge as g t hx
      omega
end

mutual
theorem replace_ground_contains : ∀ (x : Formula) (g : List Char) (t : Formula),
    groundF x = false → groundF (replaceF g t x) = true → containsLeaf x g = true
  | .mk id [], g, t, hx, hr => by
    simp only [containsLeaf]
    cases hbeq : id == g with
    | true => rfl
    | false =>
      simp only [replaceF, hbeq, Bool.false_eq_true, if_false] at hr
      rw [hx] at hr
      exact absurd hr (by simp)
  | .mk id (a :: as), g, t, hx, hr => by
    simp only [groundF, Bool.and_eq_true, Bool.and_eq_false_iff] at hx
    simp only [replaceF, groundF, Bool.and_eq_true] at hr
    simp only [containsLeaf, Bool.or_eq_true]
    rcases hx with hx | hx
    · exact Or.inl (replace_ground_contains a g t hx hr.1)
    · exact Or.inr (replaceL_ground_contains as g t hx hr.2)
theorem replaceL_ground_contains : ∀ (l : List Formula) (g : List Char) (t : Formula),
    groundL l = false → groundL (replaceL g t l) = true → containsLeafL l g = true
  | [], _, _, hx, _ => by simp [groundL] at hx
  | a :: as, g, t, hx, hr => by
    simp only [groundL, Bool.and_eq_false_iff] at hx
    simp only [replaceL, groundL, Bool.and_eq_true] at hr
    simp only [containsLeafL, Bool.or_eq_true]
    rcases hx with hx | hx
    · exact Or.inl (replace_ground_contains a g t hx hr.1)
    · exact Or.inr (replaceL_ground_contains as g t hx hr.2)
end

mutual
theorem replace_no_new_leaf : ∀ (x : Formula) (g : List Char) (t : Formula) (lb : List Char),
    containsLeaf (replaceF g t x) lb = true →
    containsLeaf x lb = true ∨ containsLeaf t lb = true
  | .mk id [], g, t, lb, hx => by
    cases hbeq : id == g with
    | true =>
      simp only [replaceF, hbeq, if_true] at hx
      exact Or.inr hx
    | false =>
      simp only [replaceF, hbeq, Bool.false_eq_true, if_false] at hx
      exact Or.inl hx
  | .mk id (a :: as), g, t, lb, hx => by
    simp only [replaceF, containsLeaf, Bool.or_eq_true] at hx
    simp only [containsLeaf, Bool.or_eq_true]
    rcases hx with hx | hx
    · rcases replace_no_new_leaf a g t lb hx with h | h
      · exact Or.inl (Or.inl h)
      · exact Or.inr h
    · rcases replaceL_no_new_leaf as g t lb hx with h | h
      · exact Or.inl (Or.inr h)
      · exact Or.inr h
theorem replaceL_no_new_leaf : ∀ (l : List Formula) (g : List Char) (t : Formula) (lb : List Char),
    containsLeafL (replaceL g t l) lb = true →
    containsLeafL l lb = true ∨ containsLeaf t lb = true
  | [], _, _, _, hx => by simp [replaceL, containsLeafL] at hx
  | a :: as, g, t, lb, hx => by
    simp only [replaceL, containsLeafL, Bool.or_eq_true] at hx
    simp only [containsLeafL, Bool.or_eq_true]
    rcases hx with hx | hx
    · rcases replace_no_new_leaf a g t lb hx with h | h
      · exact Or.inl (Or.inl h)
      · exact Or.inr h
    · rcases replaceL_no_new_leaf as g t lb hx with h | h
      · exact Or.inl (Or.inr h)
      · exact Or.inr h
end

theorem replace_keeps_goal (A : Formula) (g : List Char) (t : Formula)
    (ht : groundF t = true) (h : isGoalF (replaceF g t A) = true) :
    replaceF g t A = A ∧ isGoalF A = true := by
  cases A with
  | mk id args =>
    cases args with
    | nil =>
      cases hbeq : id == g with
      | true =>
        simp only [replaceF, hbeq, if_true] at h
        rw [isGoal_not_ground t h] at ht
        exact absurd ht (by simp)
      | false =>
        simp only [replaceF, hbeq, Bool.false_eq_true, if_false] at h ⊢
        exact ⟨by trivial, h⟩
    | cons a as =>
      simp [replaceF, isGoalF] at h

theorem entryLeB_fst (a b : Entry) (h : entryLeB a b = true) : a.1 ≤ b.1 := by
  unfold entryLeB at h
  split at h
  · omega
  · split at h
    · rename_i h1 h2
      have : a.1 = b.1 := by simpa using h2
      omega
    · exact absurd h (by simp)

theorem entryLeB_false_fst (a b : Entry) (h : entryLeB a b = false) : b.1 ≤ a.1 := by
  unfold entryLeB at h
  split at h
  · exact absurd h (by simp)
  · rename_i h1
    omega

theorem popMin_eq_none (q : List Entry) (h : popMin q = none) : q = [] := by
  cases q with
  | nil => rfl
  | cons e es =>
    simp only [popMin] at h
    cases hp : popMin es with
    | none =>
      rw [hp] at h
      exact absurd h (by simp)
    | some pr =>
      rw [hp] at h
      cases hle : entryLeB e pr.1 with
      | true => simp [hle] at h
      | false => simp [hle] at h

theorem popMin_perm : ∀ (q : List Entry) (e : Entry) (rest : List Entry),
    popMin q = some (e, rest) → q.Perm (e :: rest)
  | [], e, rest, h => by simp [popMin] at h
  | x :: xs, e, rest, h => by
    simp only [popMin] at h
    cases hp : popMin xs with
    | none =>
      rw [hp] at h
      simp only [Option.some.injEq, Prod.mk.injEq] at h
      obtain ⟨he, hr⟩ := h
      subst he
      subst hr
      rw [popMin_eq_none xs hp]
    | some pr =>
      obtain ⟨m, r'⟩ := pr
      rw [hp] at h
      have hperm := popMin_perm xs m r' hp
      cases hle : entryLeB x m with
      | true =>
        simp only [hle, if_true, Option.some.injEq, Prod.mk.injEq] at h
        obtain ⟨he, hr⟩ := h
        subst he
        subst hr
        exact List.Perm.refl _
      | false =>
        simp only [hle, Bool.false_eq_true, if_false, Option.some.injEq, Prod.mk.injEq] at h
        obtain ⟨he, hr⟩ := h
        subst he
        subst hr
        exact (List.Perm.cons x hperm).trans (List.Perm.swap m x r')

theorem popMin_size_le : ∀ (q : List Entry) (e : Entry) (rest : List Entry),
    popMin q = some (e, rest) → ∀ x ∈ rest, e.1 ≤ x.1
  | [], e, rest, h => by simp [popMin] at h
  | x :: xs, e, rest, h => by
    simp only [popMin] at h
    cases hp : popMin xs with
    | none =>
      rw [hp] at h
      simp only [Option.some.injEq, Prod.mk.injEq] at h
      obtain ⟨he, hr⟩ := h
      subst he
      subst hr
      intro y hy
      simp at hy
    | some pr =>
      obtain ⟨m, r'⟩ := pr
      rw [hp] at h
      have hih := popMin_size_le xs m r' hp
      cases hle : entryLeB x m with
      | true =>
        simp only [hle, if_true, Option.some.injEq, Prod.mk.injEq] at h
        obtain ⟨he, hr⟩ := h
        intro y hy
        rw [← hr] at hy
        rw [← he]
        rcases List.mem_cons.mp ((popMin_perm xs m r' hp).mem_iff.mp hy) with hy2 | hy2
        · subst hy2
          exact entryLeB_fst x y hle
        · exact Nat.le_trans (entryLeB_fst x m hle) (hih y hy2)
      | false =>
        simp only [hle, Bool.false_eq_true, if_false, Option.some.injEq, Prod.mk.injEq] at h
        obtain ⟨he, hr⟩ := h
        intro y hy
        rw [← hr] at hy
        rw [← he]
        rcases List.mem_cons.mp hy with hy2 | hy2
        · rw [hy2]
          exact entryLeB_false_fst x m hle
        · exact hih y hy2

theorem processRem_spec : ∀ (r : List (Formula × Formula)) (g : List Char) (t : Formula),
    (∀ p ∈ r, nonG p) → groundF t = true →
    (∀ e ∈ (processRem g t r).1, wfE e ∧ sizeF t ≤ e.1) ∧
    (∀ p ∈ (processRem g t r).2, nonG p) ∧
    ((∀ p ∈ r, srfP p) → ∀ p ∈ (processRem g t r).2, srfP p)
  | [], g, t, _, _ => by
    refine ⟨?_, ?_, ?_⟩
    · intro e he
      simp [processRem] at he
    · intro p hp
      simp [processRem] at hp
    · intro _ p hp
      simp [processRem] at hp
  | (lhs, rhs) :: rest, g, t, hr, ht => by
    have hpair := hr (lhs, rhs) (List.mem_cons_self _ _)
    obtain ⟨hpl, hpr⟩ := hpair
    have ih := processRem_spec rest g t (fun p hp => hr p (List.mem_cons_of_mem _ hp)) ht
    simp only [processRem]
    by_cases h1 : groundF (replaceF g t rhs) = true
    · rw [if_pos h1]
      have hsize : sizeF t ≤ sizeF (replaceF g t rhs) :=
        replace_size_ge rhs g t (replace_ground_contains rhs g t hpr h1)
      by_cases h2 : isGoalF (replaceF g t lhs) = true
      · rw [if_pos h2]
        refine ⟨?_, ih.2.1, fun hsrf => ih.2.2 (fun p hp => hsrf p (List.mem_cons_of_mem _ hp))⟩
        intro e he
        rcases List.mem_cons.mp he with he | he
        · subst he
          exact ⟨⟨h1, rfl, isGoal_pattern _ h2⟩, hsize⟩
        · exact ih.1 e he
      · rw [if_neg h2]
        exact ⟨ih.1, ih.2.1, fun hsrf => ih.2.2 (fun p hp => hsrf p (List.mem_cons_of_mem _ hp))⟩
    · rw [if_neg h1]
      have h1f : groundF (replaceF g t rhs) = false := by
        revert h1
        cases groundF (replaceF g t rhs) <;> simp
      by_cases h2 : groundF (replaceF g t lhs) = true
      · rw [if_pos h2]
        have hsize : sizeF t ≤ sizeF (replaceF g t lhs) :=
          replace_size_ge lhs g t (replace_ground_contains lhs g t hpl h2)
        by_cases h3 : isGoalF (replaceF g t rhs) = true
        · rw [if_pos h3]
          refine ⟨?_, ih.2.1, fun hsrf => ih.2.2 (fun p hp => hsrf p (List.mem_cons_of_mem _ hp))⟩
          intro e he
          rcases List.mem_cons.mp he with he | he
          · subst he
            exact ⟨⟨h2, rfl, isGoal_pattern _ h3⟩, hsize⟩
          · exact ih.1 e he
        · rw [if_neg h3]
          exact ⟨ih.1, ih.2.1, fun hsrf => ih.2.2 (fun p hp => hsrf p (List.mem_cons_of_mem _ hp))⟩
      · rw [if_neg h2]
        have h2f : groundF (replaceF g t lhs) = false := by
          revert h2
          cases groundF (replaceF g t lhs) <;> simp
        refine ⟨ih.1, ?_, ?_⟩
        · intro p hp
          rcases List.mem_cons.mp hp with hp | hp
          · subst hp
            exact ⟨h2f, h1f⟩
          · exact ih.2.1 p hp
        · intro hsrf p hp
          rcases List.mem_cons.mp hp with hp | hp
          · subst hp
            constructor
            · intro hg
              obtain ⟨heq, hgoal⟩ := replace_keeps_goal lhs g t ht hg
              have hid : idOf (replaceF g t lhs) = idOf lhs := by rw [heq]
              rw [hid]
              cases hc : containsLeaf (replaceF g t rhs) (idOf lhs) with
              | false => rfl
              | true =>
                rcases replace_no_new_leaf rhs g t (idOf lhs) hc with hc2 | hc2
                · have := (hsrf (lhs, rhs) (List.mem_cons_self _ _)).1 hgoal
                  rw [this] at hc2
                  exact absurd hc2 (by simp)
                · have := ground_no_goal_leaf t ht (idOf lhs) (isGoal_pattern _ hgoal)
                  rw [this] at hc2
                  exact absurd hc2 (by simp)
            · intro hg
              obtain ⟨heq, hgoal⟩ := replace_keeps_goal rhs g t ht hg
              have hid : idOf (replaceF g t rhs) = idOf rhs := by rw [heq]
              rw [hid]
              cases hc : containsLeaf (replaceF g t lhs) (idOf rhs) with
              | false => rfl
              | true =>
                rcases replace_no_new_leaf lhs g t (idOf rhs) hc with hc2 | hc2
                · have := (hsrf (lhs, rhs) (List.mem_cons_self _ _)).2 hgoal
                  rw [this] at hc2
                  exact absurd hc2 (by simp)
                · have := ground_no_goal_leaf t ht (idOf rhs) (isGoal_pattern _ hgoal)
                  rw [this] at hc2
                  exact absurd hc2 (by simp)
          · exact ih.2.2 (fun p hp => hsrf p (List.mem_cons_of_mem _ hp)) p hp

theorem loopGo_wf : ∀ (fuel : Nat) (q : List Entry) (s : List (List Char × Formula))
    (r : List (Formula × Formula)),
    (∀ e ∈ q, wfE e) → (∀ p ∈ r, nonG p) →
    (∀ e ∈ (loopGo fuel (popMin q) s r).pushes, wfE e) ∧
    (∀ p ∈ (loopGo fuel (popMin q) s r).finalRem, nonG p) ∧
    (∀ rr ∈ (loopGo fuel (popMin q) s r).rems, ∀ p ∈ rr, nonG p) := by
  intro fuel
  induction fuel with
  | zero =>
    intro q s r hq hr
    exact ⟨by intro e he; simp [loopGo] at he, by intro p hp; simpa [loopGo] using hr p hp,
           by intro rr hrr; simp [loopGo] at hrr⟩
  | succ fuel ih =>
    intro q s r hq hr
    cases hpop : popMin q with
    | none =>
      simp only [loopGo]
      exact ⟨by intro e he; simp at he, by intro p hp; exact hr p hp, by intro rr hrr; simp at hrr⟩
    | some pr =>
      obtain ⟨e, q'⟩ := pr
      have hqmem : ∀ x ∈ q', x ∈ q := fun x hx =>
        (popMin_perm q e q' hpop).mem_iff.mpr (List.mem_cons_of_mem _ hx)
      have hemem : e ∈ q := (popMin_perm q e q' hpop).mem_iff.mpr (List.mem_cons_self _ _)
      simp only [loopGo]
      by_cases hlook : (lookupS s e.2.1).isSome = true
      · rw [if_pos hlook]
        exact ih q' s r (fun x hx => hq x (hqmem x hx)) hr
      · rw [if_neg hlook]
        have hwfe := hq e hemem
        have hPR := processRem_spec r e.2.1 e.2.2 hr hwfe.1
        have hih := ih (q' ++ (processRem e.2.1 e.2.2 r).1) ((e.2.1, e.2.2) :: s)
          (processRem e.2.1 e.2.2 r).2
          (by
            intro x hx
            rcases List.mem_append.mp hx with hx | hx
            · exact hq x (hqmem x hx)
            · exact (hPR.1 x hx).1)
          hPR.2.1
        refine ⟨?_, hih.2.1, ?_⟩
        · intro x hx
          rcases List.mem_append.mp hx with hx | hx
          · exact (hPR.1 x hx).1
          · exact hih.1 x hx
        · intro rr hrr
          rcases List.mem_cons.mp hrr with hrr | hrr
          · subst hrr
            exact hPR.2.1
          · exact hih.2.2 rr hrr

theorem loopGo_srf : ∀ (fuel : Nat) (q : List Entry) (s : List (List Char × Formula))
    (r : List (Formula × Formula)),
    (∀ e ∈ q, wfE e) → (∀ p ∈ r, nonG p) → (∀ p ∈ r, srfP p) →
    (∀ rr ∈ (loopGo fuel (popMin q) s r).rems, ∀ p ∈ rr, srfP p) ∧
    (∀ p ∈ (loopGo fuel (popMin q) s r).finalRem, srfP p) := by
  intro fuel
  induction fuel with
  | zero =>
    intro q s r hq hr hsrf
    exact ⟨by intro rr hrr; simp [loopGo] at hrr, by intro p hp; exact hsrf p hp⟩
  | succ fuel ih =>
    intro q s r hq hr hsrf
    cases hpop : popMin q with
    | none =>
      simp only [loopGo]
      exact ⟨by intro rr hrr; simp at hrr, by intro p hp; exact hsrf p hp⟩
    | some pr =>
      obtain ⟨e, q'⟩ := pr
      have hqmem : ∀ x ∈ q', x ∈ q := fun x hx =>
        (popMin_perm q e q' hpop).mem_iff.mpr (List.mem_cons_of_mem _ hx)
      have hemem : e ∈ q := (popMin_perm q e q' hpop).mem_iff.mpr (List.mem_cons_self _ _)
      simp only [loopGo]
      by_cases hlook : (lookupS s e.2.1).isSome = true
      · rw [if_pos hlook]
        exact ih q' s r (fun x hx => hq x (hqmem x hx)) hr hsrf
      · rw [if_neg hlook]
        have hwfe := hq e hemem
        have hPR := processRem_spec r e.2.1 e.2.2 hr hwfe.1
        have hih := ih (q' ++ (processRem e.2.1 e.2.2 r).1) ((e.2.1, e.2.2) :: s)
          (processRem e.2.1 e.2.2 r).2
          (by
            intro x hx
            rcases List.mem_append.mp hx with hx | hx
            · exact hq x (hqmem x hx)
            · exact (hPR.1 x hx).1)
          hPR.2.1
          (hPR.2.2 hsrf)
        refine ⟨?_, hih.2⟩
        intro rr hrr
        rcases List.mem_cons.mp hrr with hrr | hrr
        · subst hrr
          exact hPR.2.2 hsrf
        · exact hih.1 rr hrr

theorem loopGo_subst : ∀ (fuel : Nat) (q : List Entry) (s : List (List Char × Formula))
    (r : List (Formula × Formula)),
    (∀ g v, lookupS s g = some v → lookupS (loopGo fuel (popMin q) s r).subst g = some v) ∧
    (∀ g, lookupS (loopGo fuel (popMin q) s r).subst g =
      (match (loopGo fuel (popMin q) s r).commits.find? (fun c => c.1 == g) with
       | some c => some c.2
       | none => lookupS s g)) ∧
    (∀ c ∈ (loopGo fuel (popMin q) s r).commits, lookupS s c.1 = none) ∧
    (((loopGo fuel (popMin q) s r).commits.map Prod.fst).Nodup) := by
  intro fuel
  induction fuel with
  | zero =>
    intro q s r
    exact ⟨fun g v h => h, fun g => rfl, fun c hc => by simp [loopGo] at hc, by simp [loopGo]⟩
  | succ fuel ih =>
    intro q s r
    cases hpop : popMin q with
    | none =>
      simp only [loopGo]
      exact ⟨fun g v h => h, fun g => rfl, fun c hc => by simp at hc, by simp⟩
    | some pr =>
      obtain ⟨e, q'⟩ := pr
      simp only [loopGo]
      by_cases hlook : (lookupS s e.2.1).isSome = true
      · rw [if_pos hlook]
        exact ih q' s r
      · rw [if_neg hlook]
        have hlookN : lookupS s e.2.1 = none := by
          revert hlook
          cases lookupS s e.2.1 <;> simp
        have ihc := ih (q' ++ (processRem e.2.1 e.2.2 r).1) ((e.2.1, e.2.2) :: s)
          (processRem e.2.1 e.2.2 r).2
        refine ⟨?_, ?_, ?_, ?_⟩
        · intro g v hgv
          have hne : (e.2.1 == g) = false := by
            cases hbeq : e.2.1 == g with
            | false => rfl
            | true =>
              have : e.2.1 = g := by simpa using hbeq
              rw [← this, hlookN] at hgv
              exact absurd hgv (by simp)
          exact ihc.1 g v (by simp only [lookupS, hne, Bool.false_eq_true, if_false]; exact hgv)
        · intro g
          by_cases hg : (e.2.1 == g) = true
          · rw [List.find?_cons_of_pos _ (by simpa using hg)]
            exact ihc.1 g e.2.2 (by simp only [lookupS, hg, if_true])
          · have hgf : (e.2.1 == g) = false := by
              revert hg
              cases e.2.1 == g <;> simp
            rw [List.find?_cons_of_neg _ (by simpa using hgf)]
            rw [ihc.2.1 g]
            cases hfind : (loopGo fuel
                (popMin (q' ++ (processRem e.2.1 e.2.2 r).1)) ((e.2.1, e.2.2) :: s)
                (processRem e.2.1 e.2.2 r).2).commits.find? (fun c => c.1 == g) with
            | some c => rfl
            | none => simp only [lookupS, hgf, Bool.false_eq_true, if_false]
        · intro c hc
          rcases List.mem_cons.mp hc with hc | hc
          · subst hc
            exact hlookN
          · have := ihc.2.2.1 c hc
            by_cases hbeq : (e.2.1 == c.1) = true
            · rw [show lookupS ((e.2.1, e.2.2) :: s) c.1 = some e.2.2 from by
                simp only [lookupS, hbeq, if_true]] at this
              exact absurd this (by simp)
            · have hbf : (e.2.1 == c.1) = false := by
                revert hbeq
                cases e.2.1 == c.1 <;> simp
              rw [show lookupS ((e.2.1, e.2.2) :: s) c.1 = lookupS s c.1 from by
                simp only [lookupS, hbf, Bool.false_eq_true, if_false]] at this
              exact this
        · rw [List.map_cons]
          refine List.nodup_cons.mpr ⟨?_, ihc.2.2.2⟩
          intro hmem
          obtain ⟨c, hc, hceq⟩ := List.mem_map.mp hmem
          have := ihc.2.2.1 c hc
          rw [show lookupS ((e.2.1, e.2.2) :: s) c.1 = some e.2.2 from by
            simp only [lookupS, show (e.2.1 == c.1) = true from by simp [hceq], if_true]] at this
          exact absurd this (by simp)

theorem loopGo_mono : ∀ (fuel : Nat) (q : List Entry) (s : List (List Char × Formula))
    (r : List (Formula × Formula)) (lb : Nat),
    (∀ e ∈ q, wfE e) → (∀ p ∈ r, nonG p) → (∀ e ∈ q, lb ≤ e.1) →
    (∀ e ∈ (loopGo fuel (popMin q) s r).pushes, lb ≤ e.1) ∧
    (∀ c ∈ (loopGo fuel (popMin q) s r).commits, lb ≤ sizeF c.2) := by
  intro fuel
  induction fuel with
  | zero =>
    intro q s r lb hq hr hlb
    exact ⟨by intro e he; simp [loopGo] at he, by intro c hc; simp [loopGo] at hc⟩
  | succ fuel ih =>
    intro q s r lb hq hr hlb
    cases hpop : popMin q with
    | none =>
      simp only [loopGo]
      exact ⟨by intro e he; simp at he, by intro c hc; simp at hc⟩
    | some pr =>
      obtain ⟨e0, q'⟩ := pr
      have hqmem : ∀ x ∈ q', x ∈ q := fun x hx =>
        (popMin_perm q e0 q' hpop).mem_iff.mpr (List.mem_cons_of_mem _ hx)
      have hemem : e0 ∈ q := (popMin_perm q e0 q' hpop).mem_iff.mpr (List.mem_cons_self _ _)
      simp only [loopGo]
      by_cases hlook : (lookupS s e0.2.1).isSome = true
      · rw [if_pos hlook]
        exact ih q' s r lb (fun x hx => hq x (hqmem x hx)) hr (fun x hx => hlb x (hqmem x hx))
      · rw [if_neg hlook]
        have hwfe := hq e0 hemem
        have hPR := processRem_spec r e0.2.1 e0.2.2 hr hwfe.1
        have hsz := hwfe.2.1
        have hlbe := hlb e0 hemem
        have hih := ih (q' ++ (processRem e0.2.1 e0.2.2 r).1) ((e0.2.1, e0.2.2) :: s)
          (processRem e0.2.1 e0.2.2 r).2 lb
          (by
            intro x hx
            rcases List.mem_append.mp hx with hx | hx
            · exact hq x (hqmem x hx)
            · exact (hPR.1 x hx).1)
          hPR.2.1
          (by
            intro x hx
            rcases List.mem_append.mp hx with hx | hx
            · exact hlb x (hqmem x hx)
            · exact Nat.le_trans hlbe (hsz ▸ (hPR.1 x hx).2))
        refine ⟨?_, ?_⟩
        · intro x hx
          rcases List.mem_append.mp hx with hx | hx
          · exact Nat.le_trans hlbe (hsz ▸ (hPR.1 x hx).2)
          · exact hih.1 x hx
        · intro c hc
          rcases List.mem_cons.mp hc with hc | hc
          · subst hc
            exact Nat.le_trans hlbe (Nat.le_of_eq hsz)
          · exact hih.2 c hc

theorem loopGo_min : ∀ (fuel : Nat) (q : List Entry) (s : List (List Char × Formula))
    (r : List (Formula × Formula)),
    (∀ e ∈ q, wfE e) → (∀ p ∈ r, nonG p) →
    ∀ g t', lookupS (loopGo fuel (popMin q) s r).subst g = some t' → lookupS s g = none →
    ∀ e ∈ q ++ (loopGo fuel (popMin q) s r).pushes, e.2.1 = g → sizeF t' ≤ e.1 := by
  intro fuel
  induction fuel with
  | zero =>
    intro q s r hq hr g t' hsub hnone e he hlab
    rw [show (loopGo 0 (popMin q) s r).subst = s from rfl, hnone] at hsub
    exact absurd hsub (by simp)
  | succ fuel ih =>
    intro q s r hq hr g t' hsub hnone
    cases hpop : popMin q with
    | none =>
      rw [hpop] at hsub
      rw [show (loopGo (Nat.succ fuel) none s r).subst = s from rfl, hnone] at hsub
      exact absurd hsub (by simp)
    | some pr =>
      obtain ⟨e0, q'⟩ := pr
      have hqmem : ∀ x ∈ q', x ∈ q := fun x hx =>
        (popMin_perm q e0 q' hpop).mem_iff.mpr (List.mem_cons_of_mem _ hx)
      have hemem : e0 ∈ q := (popMin_perm q e0 q' hpop).mem_iff.mpr (List.mem_cons_self _ _)
      have hqmem2 : ∀ x ∈ q, x = e0 ∨ x ∈ q' := fun x hx =>
        List.mem_cons.mp ((popMin_perm q e0 q' hpop).mem_iff.mp hx)
      rw [hpop] at hsub
      simp only [loopGo] at hsub ⊢
      by_cases hlook : (lookupS s e0.2.1).isSome = true
      · rw [if_pos hlook] at hsub ⊢
        intro e he hlab
        have hq' : ∀ x ∈ q', wfE x := fun x hx => hq x (hqmem x hx)
        rcases List.mem_append.mp he with he | he
        · rcases hqmem2 e he with he2 | he2
          · subst he2
            rw [hlab, hnone] at hlook
            exact absurd hlook (by simp)
          · exact ih q' s r hq' hr g t' hsub hnone e (List.mem_append.mpr (Or.inl he2)) hlab
        · exact ih q' s r hq' hr g t' hsub hnone e (List.mem_append.mpr (Or.inr he)) hlab
      · rw [if_neg hlook] at hsub ⊢
        have hlookN : lookupS s e0.2.1 = none := by
          revert hlook
          cases lookupS s e0.2.1 <;> simp
        have hwfe := hq e0 hemem
        have hPR := processRem_spec r e0.2.1 e0.2.2 hr hwfe.1
        have hsz := hwfe.2.1
        have hq2 : ∀ x ∈ q' ++ (processRem e0.2.1 e0.2.2 r).1, wfE x := by
          intro x hx
          rcases List.mem_append.mp hx with hx | hx
          · exact hq x (hqmem x hx)
          · exact (hPR.1 x hx).1
        by_cases hgeq : e0.2.1 = g
        · have hexts := (loopGo_subst fuel (q' ++ (processRem e0.2.1 e0.2.2 r).1)
            ((e0.2.1, e0.2.2) :: s) (processRem e0.2.1 e0.2.2 r).2).1 g e0.2.2
            (by simp only [lookupS, show (e0.2.1 == g) = true from by simp [hgeq], if_true])
          rw [hsub] at hexts
          have ht' : t' = e0.2.2 := by
            injection hexts.symm with h
            exact h.symm
          subst ht'
          have hmono := loopGo_mono fuel (q' ++ (processRem e0.2.1 e0.2.2 r).1)
            ((e0.2.1, e0.2.2) :: s) (processRem e0.2.1 e0.2.2 r).2 e0.1 hq2 hPR.2.1
            (by
              intro x hx
              rcases List.mem_append.mp hx with hx | hx
              · exact popMin_size_le q e0 q' hpop x hx
              · exact hsz ▸ (hPR.1 x hx).2)
          intro e he hlab
          rcases List.mem_append.mp he with he | he
          · rcases hqmem2 e he with he2 | he2
            · subst he2
              exact Nat.le_of_eq hsz.symm
            · exact Nat.le_trans (Nat.le_of_eq hsz.symm) (popMin_size_le q e0 q' hpop e he2)
          · rcases List.mem_append.mp he with he | he
            · exact (hPR.1 e he).2
            · exact Nat.le_trans (Nat.le_of_eq hsz.symm) (hmono.1 e he)
        · have hnone2 : lookupS ((e0.2.1, e0.2.2) :: s) g = none := by
            simp only [lookupS, show (e0.2.1 == g) = false from by
              simpa using hgeq, Bool.false_eq_true, if_false]
            exact hnone
          have hrec := ih (q' ++ (processRem e0.2.1 e0.2.2 r).1) ((e0.2.1, e0.2.2) :: s)
            (processRem e0.2.1 e0.2.2 r).2 hq2 hPR.2.1 g t' hsub hnone2
          intro e he hlab
          rcases List.mem_append.mp he with he | he
          · rcases hqmem2 e he with he2 | he2
            · subst he2
              exact absurd hlab hgeq
            · exact hrec e (List.mem_append.mpr (Or.inl (List.mem_append.mpr (Or.inl he2)))) hlab
          · rcases List.mem_append.mp he with he | he
            · exact hrec e (List.mem_append.mpr (Or.inl (List.mem_append.mpr (Or.inr he)))) hlab
            · exact hrec e (List.mem_append.mpr (Or.inr he)) hlab

theorem classifyPairs_wf : ∀ (pairs : List (Formula × Formula)) (q : List Entry)
    (rem : List (Formula × Formula)), classifyPairs pairs = .ok (q, rem) →
    (∀ e ∈ q, wfE e) ∧ (∀ p ∈ rem, nonG p) ∧ (∀ p ∈ rem, p ∈ pairs) := by
  intro pairs
  induction pairs with
  | nil =>
    intro q rem h
    simp only [classifyPairs, Except.ok.injEq, Prod.mk.injEq] at h
    obtain ⟨hq, hr⟩ := h
    subst hq
    subst hr
    exact ⟨by intro e he; simp at he, by intro p hp; simp at hp, by intro p hp; simp at hp⟩
  | cons hd tl ih =>
    obtain ⟨L, R⟩ := hd
    intro q rem h
    simp only [classifyPairs] at h
    split at h
    · rename_i hgR
      split at h
      · rename_i hgoalL
        split at h
        · simp at h
        · rename_i p hp
          simp only [Except.ok.injEq, Prod.mk.injEq] at h
          obtain ⟨hq, hr⟩ := h
          subst hq
          subst hr
          have h3 := ih p.1 p.2 (by rw [hp])
          refine ⟨?_, h3.2.1, fun x hx => List.mem_cons_of_mem _ (h3.2.2 x hx)⟩
          intro e he
          rcases List.mem_cons.mp he with he | he
          · subst he
            exact ⟨hgR, rfl, isGoal_pattern _ hgoalL⟩
          · exact h3.1 e he
      · simp at h
    · rename_i hgR
      have hgRf : groundF R = false := by
        revert hgR
        cases groundF R <;> simp
      split at h
      · rename_i hgL
        split at h
        · rename_i hgoalR
          split at h
          · simp at h
          · rename_i p hp
            simp only [Except.ok.injEq, Prod.mk.injEq] at h
            obtain ⟨hq, hr⟩ := h
            subst hq
            subst hr
            have h3 := ih p.1 p.2 (by rw [hp])
            refine ⟨?_, h3.2.1, fun x hx => List.mem_cons_of_mem _ (h3.2.2 x hx)⟩
            intro e he
            rcases List.mem_cons.mp he with he | he
            · subst he
              exact ⟨hgL, rfl, isGoal_pattern _ hgoalR⟩
            · exact h3.1 e he
        · simp at h
      · rename_i hgL
        have hgLf : groundF L = false := by
          revert hgL
          cases groundF L <;> simp
        split at h
        · simp at h
        · rename_i p hp
          simp only [Except.ok.injEq, Prod.mk.injEq] at h
          obtain ⟨hq, hr⟩ := h
          subst hq
          subst hr
          have h3 := ih p.1 p.2 (by rw [hp])
          refine ⟨h3.1, ?_, ?_⟩
          · intro x hx
            rcases List.mem_cons.mp hx with hx | hx
            · subst hx
              exact ⟨hgLf, hgRf⟩
            · exact h3.2.1 x hx
          · intro x hx
            rcases List.mem_cons.mp hx with hx | hx
            · subst hx
              exact List.mem_cons_self _ _
            · exact List.mem_cons_of_mem _ (h3.2.2 x hx)

theorem preparePairs_filtered : ∀ (raw : List (List Char × List Char))
    (pairs : List (Formula × Formula)), preparePairs raw = .ok pairs →
    ∀ p ∈ pairs,
      ((patternB (idOf p.1) && containsLabel p.2 (idOf p.1)) ||
       (patternB (idOf p.2) && containsLabel p.1 (idOf p.2))) = false := by
  intro raw
  induction raw with
  | nil =>
    intro pairs h p hp
    simp only [preparePairs, Except.ok.injEq] at h
    subst h
    simp at hp
  | cons hd tl ih =>
    obtain ⟨ls, rs⟩ := hd
    intro pairs h p hp
    simp only [preparePairs] at h
    split at h
    · simp at h
    · simp at h
    · rename_i lhs hl
      split at h
      · simp at h
      · simp at h
      · rename_i rhs hr
        split at h
        · simp at h
        · rename_i tail htail
          split at h
          · rename_i hcond
            simp only [Except.ok.injEq] at h
            subst h
            exact ih tail (by rw [htail]) p hp
          · rename_i hcond
            have hcf : ((patternB (idOf lhs) && containsLabel rhs (idOf lhs)) ||
                (patternB (idOf rhs) && containsLabel lhs (idOf rhs))) = false := by
              revert hcond
              cases (patternB (idOf lhs) && containsLabel rhs (idOf lhs)) ||
                (patternB (idOf rhs) && containsLabel lhs (idOf rhs)) <;> simp
            simp only [Except.ok.injEq] at h
            subst h
            rcases List.mem_cons.mp hp with hp | hp
            · subst hp
              exact hcf
            · exact ih tail (by rw [htail]) p hp

mutual
theorem containsLeaf_label : ∀ (x : Formula) (g : List Char),
    containsLeaf x g = true → containsLabel x g = true
  | .mk id [], g, h => by
    simp only [containsLeaf] at h
    simp [containsLabel, h]
  | .mk id (a :: as), g, h => by
    simp only [containsLeaf, Bool.or_eq_true] at h
    simp only [containsLabel, containsLabelL, Bool.or_eq_true]
    rcases h with h | h
    · exact Or.inr (Or.inl (containsLeaf_label a g h))
    · exact Or.inr (Or.inr (containsLeafL_label as g h))
theorem containsLeafL_label : ∀ (l : List Formula) (g : List Char),
    containsLeafL l g = true → containsLabelL l g = true
  | [], g, h => by simp [containsLeafL] at h
  | a :: as, g, h => by
    simp only [containsLeafL, Bool.or_eq_true] at h
    simp only [containsLabelL, Bool.or_eq_true]
    rcases h with h | h
    · exact Or.inl (containsLeaf_label a g h)
    · exact Or.inr (containsLeafL_label as g h)
end

/- =====================================================================
   C6.  Minimality and write-once discipline of the resolution map.
   ===================================================================== -/

/-- C6: for every classified pair list, at any fuel, (i) the final
resolution map agrees exactly with the FIRST commit for each label -
later popped candidates never overwrite an existing binding; (ii) no
label is committed twice; and (iii) every binding is minimal: its
term's node count is at most the stored priority (= value size) of
EVERY entry for that label that was ever scheduled, whether present in
the initial queue or pushed during resolution. -/
theorem c6_minimality_write_once :
    ∀ (pairs : List (Formula × Formula)) (q : List Entry) (rem : List (Formula × Formula))
      (fuel : Nat),
    classifyPairs pairs = .ok (q, rem) →
    (∀ g, lookupS (loopR fuel q [] rem).subst g =
       (match (loopR fuel q [] rem).commits.find? (fun c => c.1 == g) with
        | some c => some c.2
        | none => none)) ∧
    ((loopR fuel q [] rem).commits.map Prod.fst).Nodup ∧
    (∀ g t', lookupS (loopR fuel q [] rem).subst g = some t' →
       ∀ e ∈ q ++ (loopR fuel q [] rem).pushes, e.2.1 = g → sizeF t' ≤ e.1) := by
  intro pairs q rem fuel hcls
  have hwf := classifyPairs_wf pairs q rem hcls
  have hsub := loopGo_subst fuel q [] rem
  have hmin := loopGo_min fuel q [] rem hwf.1 hwf.2.1
  refine ⟨?_, hsub.2.2.2, ?_⟩
  · intro g
    exact hsub.2.1 g
  · intro g t' hs e he hlab
    exact hmin g t' hs rfl e he hlab

/-- C6 (witness): with the two scheduled candidates f(a,b) of size 3
and f(h(a),g(c)) of size 5 for goal1, the final binding is the size-3
term and its size is at most the size-5 entry's priority. -/
theorem c6_witness :
    lookupS (loopR 3
      [(3, "goal1".data, Formula.mk "f".data [.mk "a".data [], .mk "b".data []]),
       (5, "goal1".data, Formula.mk "f".data [.mk "h".data [.mk "a".data []],
          .mk "g".data [.mk "c".data []]])] [] []).subst "goal1".data =
      some (.mk "f".data [.mk "a".data [], .mk "b".data []]) ∧
    sizeF (Formula.mk "f".data [.mk "a".data [], .mk "b".data []]) ≤ 5 := by
  have h := c6_minimality_write_once
    [(Formula.mk "goal1".data [], .mk "f".data [.mk "a".data [], .mk "b".data []]),
     (Formula.mk "goal1".data [], .mk "f".data [.mk "h".data [.mk "a".data []],
        .mk "g".data [.mk "c".data []]])]
    [(3, "goal1".data, .mk "f".data [.mk "a".data [], .mk "b".data []]),
     (5, "goal1".data, .mk "f".data [.mk "h".data [.mk "a".data []],
        .mk "g".data [.mk "c".data []]])]
    [] 3 (by decide)
  refine ⟨by decide, ?_⟩
  exact h.2.2 "goal1".data (.mk "f".data [.mk "a".data [], .mk "b".data []]) (by decide)
    (5, "goal1".data, .mk "f".data [.mk "h".data [.mk "a".data []],
       .mk "g".data [.mk "c".data []]]) (by decide) rfl

/- =====================================================================
   C7.  Self-reference: the claimed invariant fails for identifier
   occurrences at application HEADS (is_ground never inspects them),
   but holds for LEAF occurrences.
   ===================================================================== -/

/-- C7 (counterexample): from the extracted pairs goal2 = goal1(a) and
goal1 = f(goal2) - both of which survive the pre-filter - the loop
substitutes goal2 and SCHEDULES the entry binding the bare label goal1
to f(goal1(a)), whose tree contains the identifier goal1; a pair with
one side the bare label goal1 and the other side containing goal1 is
therefore scheduled, contradicting the claimed invariant. -/
theorem c7_counterexample :
    preparePairs [("goal2".data, "goal1(a)".data), ("goal1".data, "f(goal2)".data)] =
      .ok [(.mk "goal2".data [], .mk "goal1".data [.mk "a".data []]),
           (.mk "goal1".data [], .mk "f".data [.mk "goal2".data []])] ∧
    classifyPairs [(.mk "goal2".data [], .mk "goal1".data [.mk "a".data []]),
           (.mk "goal1".data [], .mk "f".data [.mk "goal2".data []])] =
      .ok ([(2, "goal2".data, .mk "goal1".data [.mk "a".data []])],
           [(.mk "goal1".data [], .mk "f".data [.mk "goal2".data []])]) ∧
    (3, "goal1".data, Formula.mk "f".data [.mk "goal1".data [.mk "a".data []]]) ∈
      (loopR 3 [(2, "goal2".data, .mk "goal1".data [.mk "a".data []])] []
        [(.mk "goal1".data [], .mk "f".data [.mk "goal2".data []])]).pushes ∧
    isGoalF (.mk "goal1".data []) = true ∧
    containsLabel (.mk "f".data [.mk "goal1".data [.mk "a".data []]]) "goal1".data = true := by
  exact ⟨by decide, by decide, by decide, by decide, by decide⟩

/-- C7 (amended): with "contains" restricted to LEAF occurrences the
invariant does hold and is proved for every run from extracted pairs:
no scheduled entry's value contains its own label as a leaf (scheduled
values are ground, so they contain no goal-pattern leaf at all), and in
the initial pending set and in every pending set after a commit, no
pair has a bare goal-label side whose identifier occurs as a leaf of
the opposite side. -/
theorem c7_no_leaf_self_reference :
    ∀ (raw : List (List Char × List Char)) (pairs : List (Formula × Formula))
      (q : List Entry) (rem : List (Formula × Formula)) (fuel : Nat),
    preparePairs raw = .ok pairs → classifyPairs pairs = .ok (q, rem) →
    (∀ e ∈ q ++ (loopR fuel q [] rem).pushes, containsLeaf e.2.2 e.2.1 = false) ∧
    (∀ rr ∈ rem :: (loopR fuel q [] rem).rems, ∀ p ∈ rr, srfP p) := by
  intro raw pairs q rem fuel hprep hcls
  have hwf := classifyPairs_wf pairs q rem hcls
  have hsrf0 : ∀ p ∈ rem, srfP p := by
    intro p hp
    have hfp := preparePairs_filtered raw pairs hprep p (hwf.2.2 p hp)
    simp only [Bool.or_eq_false_iff, Bool.and_eq_false_iff] at hfp
    constructor
    · intro hg
      cases hc : containsLeaf p.2 (idOf p.1) with
      | false => rfl
      | true =>
        have hlab := containsLeaf_label p.2 (idOf p.1) hc
        rcases hfp.1 with hx | hx
        · rw [isGoal_pattern p.1 hg] at hx
          exact absurd hx (by simp)
        · rw [hlab] at hx
          exact absurd hx (by simp)
    · intro hg
      cases hc : containsLeaf p.1 (idOf p.2) with
      | false => rfl
      | true =>
        have hlab := containsLeaf_label p.1 (idOf p.2) hc
        rcases hfp.2 with hx | hx
        · rw [isGoal_pattern p.2 hg] at hx
          exact absurd hx (by simp)
        · rw [hlab] at hx
          exact absurd hx (by simp)
  have hml := loopGo_wf fuel q [] rem hwf.1 hwf.2.1
  have hsrfl := loopGo_srf fuel q [] rem hwf.1 hwf.2.1 hsrf0
  refine ⟨?_, ?_⟩
  · intro e he
    have hwfe : wfE e := by
      rcases List.mem_append.mp he with he | he
      · exact hwf.1 e he
      · exact hml.1 e he
    exact ground_no_goal_leaf e.2.2 hwfe.1 e.2.1 hwfe.2.2
  · intro rr hrr
    rcases List.mem_cons.mp hrr with hrr | hrr
    · subst hrr
      exact hsrf0
    · exact hsrfl.1 rr hrr

/-- C7 (witness): the classified pair (goal1, f(a)) gives a run in
which the scheduled value f(a) contains no goal1 leaf. -/
theorem c7_witness :
    containsLeaf (.mk "f".data [.mk "a".data []]) "goal1".data = false := by
  have h := c7_no_leaf_self_reference [("goal1".data, "f(a)".data)]
    [(.mk "goal1".data [], .mk "f".data [.mk "a".data []])]
    [(2, "goal1".data, .mk "f".data [.mk "a".data []])] [] 2
    (by decide) (by decide)
  exact h.1 (2, "goal1".data, .mk "f".data [.mk "a".data []])
    (List.mem_append.mpr (Or.inl (List.mem_cons_self _ _)))
